import Mathlib

/-
  Verification of the immutable left-leaning red-black tree node
  (Firestore/core/src/firebase/firestore/immutable/llrb_node.h).

  Two embeddings are developed:

  * a pure, value-level embedding (namespace FirestoreLlrb.LlrbNode) used for
    the algorithmic and invariant properties of insert / FixUp / rotations;
  * a store-passing embedding (namespace FirestoreLlrb.Heap) in which node
    Reps live at explicit addresses and the setters mutate cells, used for
    the persistence (frame) property and the shared empty-sentinel property.

  The size field of a Rep is a 31-bit unsigned bitfield, so every store to it
  truncates modulo 2 ^ 31; the embedding keeps sizes as Nat and applies the
  truncation exactly where the source stores the field.
-/

set_option maxHeartbeats 1000000

namespace FirestoreLlrb

/-- A Color of a tree node in a red-black tree (enum Color in llrb_node.h);
Black is the zero value, Red is nonzero. -/
inductive Color : Type where
  | Black : Color
  | Red : Color
deriving DecidableEq, Repr

/-- The OppositeColor helper: Red maps to Black and Black maps to Red. -/
def Color.opposite : Color → Color
  | Color.Red => Color.Black
  | Color.Black => Color.Red

/-- LlrbNode, shallowly embedded as a value. The nil constructor stands for
the shared empty sentinel; a node carries the Rep fields: entry, color, the
stored (31-bit) size field, and the two children. -/
inductive LlrbNode (K V : Type) : Type where
  | nil : LlrbNode K V
  | node : K × V → Color → Nat → LlrbNode K V → LlrbNode K V → LlrbNode K V
deriving DecidableEq, Repr

/-- The modulus of the 31-bit unsigned size bitfield of a Rep. -/
def sizeMod : Nat := 2 ^ 31

namespace LlrbNode

variable {K V : Type}

/-- The size accessor: it returns the stored size field; the sentinel Rep
stores 0. -/
def size : LlrbNode K V → Nat
  | nil => 0
  | node _ _ s _ _ => s

/-- A node is empty when its stored size field is 0. -/
def empty (t : LlrbNode K V) : Bool := t.size == 0

/-- The color accessor; the sentinel Rep is Black. -/
def color : LlrbNode K V → Color
  | nil => Color.Black
  | node _ c _ _ _ => c

/-- The red accessor: the color field read as a boolean. -/
def red (t : LlrbNode K V) : Bool := t.color == Color.Red

/-- The entry accessor; the sentinel Rep holds a value-initialized pair,
modelled by the default element. -/
def entry [Inhabited K] [Inhabited V] : LlrbNode K V → K × V
  | nil => default
  | node e _ _ _ _ => e

/-- The key accessor: first component of the entry. -/
def key [Inhabited K] [Inhabited V] (t : LlrbNode K V) : K := t.entry.1

/-- The value accessor: second component of the entry. -/
def value [Inhabited K] [Inhabited V] (t : LlrbNode K V) : V := t.entry.2

/-- The left accessor; the sentinel's left child is wired back to the
sentinel itself. -/
def left : LlrbNode K V → LlrbNode K V
  | nil => nil
  | node _ _ _ l _ => l

/-- The right accessor; the sentinel's right child is wired back to the
sentinel itself. -/
def right : LlrbNode K V → LlrbNode K V
  | nil => nil
  | node _ _ _ _ r => r

/-- The four-argument Rep constructor: the stored size is computed as
left.size() + 1 + right.size() and truncated into the 31-bit bitfield. -/
def mkRep (e : K × V) (c : Color) (l r : LlrbNode K V) : LlrbNode K V :=
  node e c ((l.size + 1 + r.size) % sizeMod) l r

/-- RotateLeft: the entry of this node moves into a fresh Red left child
(built by the four-argument Rep constructor from the old left child and the
right child's left child); this node takes over the right child's entry and
right child, keeping its own color and stored size. Never invoked on the
sentinel by FixUp, since the guard requires a red right child. -/
def RotateLeft [Inhabited K] [Inhabited V] : LlrbNode K V → LlrbNode K V
  | nil => nil
  | node e c s l r => node r.entry c s (mkRep e Color.Red l r.left) r.right

/-- RotateRight: the mirror image of RotateLeft. -/
def RotateRight [Inhabited K] [Inhabited V] : LlrbNode K V → LlrbNode K V
  | nil => nil
  | node e c s l r => node l.entry c s l.left (mkRep e Color.Red l.right r)

/-- The Clone-and-recolor step FlipColor performs on each child: a shallow
copy of the child's Rep with its color replaced by the opposite color.
Cloning the sentinel yields a real Rep copying the sentinel's fields, so its
recolored clone is a Red size-0 node whose children are the sentinel. -/
def flipChild [Inhabited K] [Inhabited V] : LlrbNode K V → LlrbNode K V
  | nil => node default Color.Red 0 nil nil
  | node e c s l r => node e c.opposite s l r

/-- FlipColor: recolor this node to its opposite color and replace each
child by a recolored clone of itself (FixUp only invokes it when both
children are red). FlipColor is never invoked on the sentinel. -/
def FlipColor [Inhabited K] [Inhabited V] : LlrbNode K V → LlrbNode K V
  | nil => nil
  | node e c s l r => node e c.opposite s (flipChild l) (flipChild r)

/-- The set_size(left().size() + 1 + right().size()) step of FixUp: the sum
is computed in size_type arithmetic and truncated into the 31-bit field. -/
def resize : LlrbNode K V → LlrbNode K V
  | nil => nil
  | node e c _ l r => node e c ((l.size + 1 + r.size) % sizeMod) l r

/-- FixUp: recompute the stored size from the children, then, in this exact
order: rotate left if the right child is red and the left child is not;
rotate right if the left child and its left child are both red; flip colors
if both children are red. -/
def FixUp [Inhabited K] [Inhabited V] (t : LlrbNode K V) : LlrbNode K V :=
  let t1 := resize t
  let t2 := if t1.right.red && !t1.left.red then RotateLeft t1 else t1
  let t3 := if t2.left.red && t2.left.left.red then RotateRight t2 else t2
  if t3.left.red && t3.right.red then FlipColor t3 else t3

/-- InnerInsert: if the receiver is empty (stored size 0), return a fresh
Red leaf built by the four-argument Rep constructor from two
default-constructed (sentinel) children; otherwise clone the receiver and,
depending on the comparator, insert into the left child and fix up, insert
into the right child and fix up, or replace the stored value. -/
def InnerInsert [Inhabited K] [Inhabited V]
    (cmp : K → K → Bool) (k : K) (v : V) : LlrbNode K V → LlrbNode K V
  | nil => mkRep (k, v) Color.Red nil nil
  | node e c s l r =>
    if s == 0 then mkRep (k, v) Color.Red nil nil
    else if cmp k e.1 then FixUp (node e c s (InnerInsert cmp k v l) r)
    else if cmp e.1 k then FixUp (node e c s l (InnerInsert cmp k v r))
    else node (e.1, v) c s l r

/-- The set_color(Color::Black) performed on a red root by insert. -/
def paintBlack : LlrbNode K V → LlrbNode K V
  | nil => nil
  | node e _ s l r => node e Color.Black s l r

/-- The public insert: run InnerInsert and recolor the resulting root Black
if it came back Red. -/
def insert [Inhabited K] [Inhabited V]
    (cmp : K → K → Bool) (k : K) (v : V) (t : LlrbNode K V) : LlrbNode K V :=
  let root := InnerInsert cmp k v t
  if root.red then paintBlack root else root

/-- The standard in-order traversal of a tree: left, self, right; the empty
node produces no entries. -/
def inorder : LlrbNode K V → List (K × V)
  | nil => []
  | node e _ _ l r => inorder l ++ e :: inorder r

/-- The number of entries actually present in a subtree (independent of the
stored size fields). -/
def count : LlrbNode K V → Nat
  | nil => 0
  | node _ _ _ l r => count l + 1 + count r

/-- Run a sequence of inserts starting from a given tree. -/
def insertList [Inhabited K] [Inhabited V]
    (cmp : K → K → Bool) : List (K × V) → LlrbNode K V → LlrbNode K V
  | [], t => t
  | (k, v) :: rest, t => insertList cmp rest (insert cmp k v t)

/-- The tree obtained by inserting a sequence of entries into the empty
node, in order. -/
def insertSeq [Inhabited K] [Inhabited V]
    (cmp : K → K → Bool) (l : List (K × V)) : LlrbNode K V :=
  insertList cmp l nil

/-- The coloring discipline maintained by the tree between operations:
no right child anywhere is red, and no red node has a red left child. -/
def ok : LlrbNode K V → Bool
  | nil => true
  | node _ c _ l r => ok l && ok r && !r.red && !(c == Color.Red && l.red)

/-- The coloring discipline of an intermediate result of InnerInsert: both
subtrees obey the full discipline and the right child is not red, but the
root may be red with a red left child. -/
def okR : LlrbNode K V → Bool
  | nil => true
  | node _ _ _ l r => ok l && ok r && !r.red

/-- The number of black nodes along the left spine. -/
def bh : LlrbNode K V → Nat
  | nil => 0
  | node _ c _ l _ => bh l + (if c == Color.Black then 1 else 0)

/-- Black balance: at every node the left and right subtrees have equal
left-spine black counts. -/
def balanced : LlrbNode K V → Bool
  | nil => true
  | node _ _ _ l r => balanced l && balanced r && (bh l == bh r)

/-- The black-node count of every path from the root down to an empty
leaf. -/
def pathBlacks : LlrbNode K V → List Nat
  | nil => [0]
  | node _ c _ l r =>
    (pathBlacks l ++ pathBlacks r).map
      (fun m => m + (if c == Color.Black then 1 else 0))

/-- Every stored size field holds the subtree's entry count truncated into
the 31-bit bitfield. -/
def sizeConsistent : LlrbNode K V → Bool
  | nil => true
  | node _ _ s l r =>
    (s == (count l + 1 + count r) % sizeMod) && sizeConsistent l &&
      sizeConsistent r

/-- No stored size field of a real node is 0 (so empty() identifies exactly
the sentinel). -/
def noZeroSize : LlrbNode K V → Bool
  | nil => true
  | node _ _ s l r => (decide (s ≠ 0)) && noZeroSize l && noZeroSize r

/-- Clause of claim C1: no Red node has a Red right child. -/
def noRedRedRight : LlrbNode K V → Bool
  | nil => true
  | node _ c _ l r =>
    !(c == Color.Red && r.red) && noRedRedRight l && noRedRedRight r

/-- Clause of claim C1: no two consecutive Red nodes along a left chain. -/
def noRedRedLeft : LlrbNode K V → Bool
  | nil => true
  | node _ c _ l r =>
    !(c == Color.Red && l.red) && noRedRedLeft l && noRedRedLeft r

/-- The literal size clause of the spec: at every node the stored size
field equals 1 + left.size + right.size exactly. -/
def sizeFieldOkExact : LlrbNode K V → Bool
  | nil => true
  | node _ _ s l r =>
    (s == 1 + l.size + r.size) && sizeFieldOkExact l && sizeFieldOkExact r

/-- The size clause as the 31-bit field actually realizes it: at every node
the stored size equals 1 + left.size + right.size reduced modulo 2 ^ 31. -/
def sizeFieldOkMod : LlrbNode K V → Bool
  | nil => true
  | node _ _ s l r =>
    (s == (1 + l.size + r.size) % sizeMod) && sizeFieldOkMod l &&
      sizeFieldOkMod r

/-- The tree with every stored value erased: it records exactly the
structure, keys, colors and stored sizes of a tree. -/
def skeleton : LlrbNode K V → LlrbNode K Unit
  | nil => nil
  | node e c s l r => node (e.1, ()) c s (skeleton l) (skeleton r)

/-- Rotate left if the right child is red and the left child is not: the
first conditional transformation of FixUp, as its own step. -/
def rotateLeftStep [Inhabited K] [Inhabited V] (t : LlrbNode K V) :
    LlrbNode K V :=
  if t.right.red && !t.left.red then RotateLeft t else t

/-- Rotate right if the left child and its left child are both red: the
second conditional transformation of FixUp, as its own step. -/
def rotateRightStep [Inhabited K] [Inhabited V] (t : LlrbNode K V) :
    LlrbNode K V :=
  if t.left.red && t.left.left.red then RotateRight t else t

/-- Flip colors if both children are red: the third conditional
transformation of FixUp, as its own step. -/
def flipStep [Inhabited K] [Inhabited V] (t : LlrbNode K V) :
    LlrbNode K V :=
  if t.left.red && t.right.red then FlipColor t else t

/-- The recursive insert step as claim C6 states it: the fix-up is applied
on every return path, whatever the comparator's outcome, so also after a
plain value update. Written from the claim, to be compared with
InnerInsert. -/
def innerInsertFixAll [Inhabited K] [Inhabited V]
    (cmp : K → K → Bool) (k : K) (v : V) : LlrbNode K V → LlrbNode K V
  | nil => mkRep (k, v) Color.Red nil nil
  | node e c s l r =>
    if s == 0 then mkRep (k, v) Color.Red nil nil
    else if cmp k e.1 then FixUp (node e c s (innerInsertFixAll cmp k v l) r)
    else if cmp e.1 k then FixUp (node e c s l (innerInsertFixAll cmp k v r))
    else FixUp (node (e.1, v) c s l r)

end LlrbNode

/-- The comparator orders two keys in neither direction: they are
equivalent and insert treats them as equal. -/
def eqvKeys {K : Type} (cmp : K → K → Bool) (a b : K) : Prop :=
  cmp a b = false ∧ cmp b a = false

/-- The contract the caller-supplied comparator must satisfy: a strict
total order given as a boolean less-than predicate. -/
structure IsSTO {K : Type} (cmp : K → K → Bool) : Prop where
  irrefl : ∀ a, cmp a a = false
  lt_trans : ∀ a b c, cmp a b = true → cmp b c = true → cmp a c = true
  total : ∀ a b, a ≠ b → cmp a b = true ∨ cmp b a = true

/-- Insertion of an entry into an entry list at its comparator position,
replacing the value (but keeping the stored key) when an equivalent key is
met: the list-level description of what one insert does to the in-order
entry sequence. -/
def linsert {K V : Type} (cmp : K → K → Bool) (k : K) (v : V) :
    List (K × V) → List (K × V)
  | [] => [(k, v)]
  | e :: rest =>
    if cmp k e.1 then (k, v) :: e :: rest
    else if cmp e.1 k then e :: linsert cmp k v rest
    else (e.1, v) :: rest

/-- The entry list is strictly ascending: the comparator orders every
earlier key before every later key. -/
abbrev ascending {K V : Type} (cmp : K → K → Bool) (l : List (K × V)) : Prop :=
  List.Pairwise (fun a b => cmp a.1 b.1 = true) l

/-- The full invariant carried by every tree the public insert returns:
coloring discipline, black balance, stored sizes consistent with entry
counts modulo 2 ^ 31, black root, entry count at most 2 ^ 31, and
strictly ascending in-order entries. -/
def Inv {K V : Type} (cmp : K → K → Bool) (t : LlrbNode K V) : Prop :=
  LlrbNode.ok t = true ∧ LlrbNode.balanced t = true ∧
    LlrbNode.sizeConsistent t = true ∧ LlrbNode.red t = false ∧
    LlrbNode.count t ≤ sizeMod ∧ ascending cmp (LlrbNode.inorder t)

/-- The natural strict order on Nat as a boolean comparator. -/
def natLt (a b : Nat) : Bool := decide (a < b)

/-- The first n naturals paired with value 0, as an insert sequence. -/
def rangePairs (n : Nat) : List (Nat × Nat) :=
  (List.range n).map (fun i => (i, 0))

/-
  Store-passing embedding: each Rep lives at an address in a store (a list
  of cells, address = index); an LlrbNode value is the address of its Rep.
  The setters mutate the addressed cell, Clone and the Rep constructors
  allocate fresh cells, exactly as the shared_ptr-based source does.  This
  embedding makes the path-copying discipline of insert observable: the
  persistence claim is that no call to insert ever writes to a cell that
  existed before the call.
-/
namespace Heap

/-- The Rep of a node in the store-passing embedding: entry, color, stored
size and the addresses of the two children. -/
structure RepH (K V : Type) : Type where
  entry : K × V
  color : Color
  size : Nat
  left : Nat
  right : Nat
deriving DecidableEq, Repr

variable {K V : Type}

/-- The Rep of the empty sentinel: value-initialized entry, Black, size 0,
and both children wired to address 0, the address the sentinel itself
occupies in every store built from store0. -/
def emptyRepH [Inhabited K] [Inhabited V] : RepH K V :=
  { entry := default, color := Color.Black, size := 0, left := 0, right := 0 }

/-- A store of Rep cells; the address of a cell is its index. -/
abbrev StoreH (K V : Type) : Type := List (RepH K V)

/-- The initial store: only the lazily-constructed empty sentinel exists,
at address 0. -/
def store0 [Inhabited K] [Inhabited V] : StoreH K V := [emptyRepH]

/-- The address produced by the default LlrbNode constructor: it shares the
canonical EmptyRep, which lives at address 0. -/
def defaultAddr : Nat := 0

/-- Read the cell at an address. -/
def getCell [Inhabited K] [Inhabited V] (s : StoreH K V) (a : Nat) : RepH K V :=
  List.getD s a emptyRepH

/-- Overwrite the cell at an address (a setter acting through rep_). -/
def putCell (s : StoreH K V) (a : Nat) (rep : RepH K V) : StoreH K V :=
  List.set s a rep

/-- Allocate a fresh cell (make_shared of a new Rep) and return its
address. -/
def allocCell (s : StoreH K V) (rep : RepH K V) : StoreH K V × Nat :=
  (s ++ [rep], s.length)

/-- The length of a store, the next address to be allocated. -/
def lenH (s : StoreH K V) : Nat := s.length

/-- size() at an address. -/
def sizeH [Inhabited K] [Inhabited V] (s : StoreH K V) (a : Nat) : Nat :=
  (getCell s a).size

/-- red() at an address. -/
def redH [Inhabited K] [Inhabited V] (s : StoreH K V) (a : Nat) : Bool :=
  (getCell s a).color == Color.Red

/-- leftH: the address of the left child of the node at an address. -/
def leftH [Inhabited K] [Inhabited V] (s : StoreH K V) (a : Nat) : Nat :=
  (getCell s a).left

/-- rightH: the address of the right child of the node at an address. -/
def rightH [Inhabited K] [Inhabited V] (s : StoreH K V) (a : Nat) : Nat :=
  (getCell s a).right

/-- The four-argument Rep constructor: allocate a Rep whose size is
computed from the children's stored sizes, truncated to the 31-bit
field. -/
def allocRep4 [Inhabited K] [Inhabited V] (s : StoreH K V)
    (e : K × V) (c : Color) (la ra : Nat) : StoreH K V × Nat :=
  allocCell s
    { entry := e, color := c, size := (sizeH s la + 1 + sizeH s ra) % sizeMod,
      left := la, right := ra }

/-- Clone: allocate a shallow copy of the Rep at an address. -/
def cloneH [Inhabited K] [Inhabited V] (s : StoreH K V) (a : Nat) :
    StoreH K V × Nat :=
  allocCell s (getCell s a)

/-- set_left acting on the cell at an address. -/
def setLeftH [Inhabited K] [Inhabited V] (s : StoreH K V) (a la : Nat) :
    StoreH K V :=
  putCell s a { getCell s a with left := la }

/-- set_right acting on the cell at an address. -/
def setRightH [Inhabited K] [Inhabited V] (s : StoreH K V) (a ra : Nat) :
    StoreH K V :=
  putCell s a { getCell s a with right := ra }

/-- set_value acting on the cell at an address: replaces only the second
component of the entry. -/
def setValueH [Inhabited K] [Inhabited V] (s : StoreH K V) (a : Nat) (v : V) :
    StoreH K V :=
  putCell s a { getCell s a with entry := ((getCell s a).entry.1, v) }

/-- set_size acting on the cell at an address; the store truncates into the
31-bit bitfield. -/
def setSizeH [Inhabited K] [Inhabited V] (s : StoreH K V) (a : Nat) (n : Nat) :
    StoreH K V :=
  putCell s a { getCell s a with size := n % sizeMod }

/-- set_color acting on the cell at an address. -/
def setColorH [Inhabited K] [Inhabited V] (s : StoreH K V) (a : Nat)
    (c : Color) : StoreH K V :=
  putCell s a { getCell s a with color := c }

/-- RotateLeft at an address: allocate the new Red left child from this
node's entry, its left child and its right child's left child, then
redirect this cell to the right child's entry and right child. -/
def rotateLeftH [Inhabited K] [Inhabited V] (s : StoreH K V) (a : Nat) :
    StoreH K V :=
  let x := getCell s a
  let r := getCell s x.right
  let (s1, nl) := allocRep4 s x.entry Color.Red x.left r.left
  putCell s1 a { getCell s1 a with entry := r.entry, left := nl, right := r.right }

/-- RotateRight at an address: the mirror image of rotateLeftH. -/
def rotateRightH [Inhabited K] [Inhabited V] (s : StoreH K V) (a : Nat) :
    StoreH K V :=
  let x := getCell s a
  let l := getCell s x.left
  let (s1, nr) := allocRep4 s x.entry Color.Red l.right x.right
  putCell s1 a { getCell s1 a with entry := l.entry, left := l.left, right := nr }

/-- FlipColor at an address: clone each child with its color flipped to the
opposite, then recolor this cell to its own opposite color and point it at
the two fresh clones. -/
def flipColorH [Inhabited K] [Inhabited V] (s : StoreH K V) (a : Nat) :
    StoreH K V :=
  let x := getCell s a
  let l := getCell s x.left
  let r := getCell s x.right
  let (s1, nl) := allocCell s { l with color := l.color.opposite }
  let (s2, nr) := allocCell s1 { r with color := r.color.opposite }
  putCell s2 a { getCell s2 a with color := x.color.opposite, left := nl, right := nr }

/-- FixUp at an address: recompute the stored size from the children, then
apply the three conditional transformations in order. -/
def fixUpH [Inhabited K] [Inhabited V] (s : StoreH K V) (a : Nat) :
    StoreH K V :=
  let s1 := setSizeH s a (sizeH s (leftH s a) + 1 + sizeH s (rightH s a))
  let s2 := if redH s1 (rightH s1 a) && !redH s1 (leftH s1 a)
    then rotateLeftH s1 a else s1
  let s3 := if redH s2 (leftH s2 a) && redH s2 (leftH s2 (leftH s2 a))
    then rotateRightH s2 a else s2
  if redH s3 (leftH s3 a) && redH s3 (rightH s3 a)
    then flipColorH s3 a else s3

/-- InnerInsert at an address, with fuel bounding the recursion depth (the
source recursion terminates because real stores are acyclic away from the
sentinel); on fuel exhaustion no further mutation happens and no address is
returned. -/
def innerInsertH [Inhabited K] [Inhabited V] (cmp : K → K → Bool) (k : K)
    (v : V) : Nat → StoreH K V → Nat → StoreH K V × Option Nat
  | 0, s, _ => (s, none)
  | fuel + 1, s, a =>
    let rep := getCell s a
    if rep.size == 0 then
      let (s1, b) := allocRep4 s (k, v) Color.Red 0 0
      (s1, some b)
    else
      let (s1, res) := cloneH s a
      if cmp k rep.entry.1 then
        match innerInsertH cmp k v fuel s1 rep.left with
        | (s2, some la) => (fixUpH (setLeftH s2 res la) res, some res)
        | (s2, none) => (s2, none)
      else if cmp rep.entry.1 k then
        match innerInsertH cmp k v fuel s1 rep.right with
        | (s2, some ra) => (fixUpH (setRightH s2 res ra) res, some res)
        | (s2, none) => (s2, none)
      else
        (setValueH s1 res v, some res)

/-- The public insert at an address: run innerInsertH and recolor the
returned root Black if it came back Red. -/
def insertH [Inhabited K] [Inhabited V] (cmp : K → K → Bool) (k : K) (v : V)
    (fuel : Nat) (s : StoreH K V) (a : Nat) : StoreH K V × Option Nat :=
  match innerInsertH cmp k v fuel s a with
  | (s1, some r) =>
    if redH s1 r then (setColorH s1 r Color.Black, some r) else (s1, some r)
  | (s1, none) => (s1, none)

/-- Read the tree rooted at an address as a value, with fuel bounding the
depth; a cell with stored size 0 reads as the empty tree, exactly as
empty() reports. -/
def readTreeH [Inhabited K] [Inhabited V] :
    Nat → StoreH K V → Nat → LlrbNode K V
  | 0, _, _ => LlrbNode.nil
  | fuel + 1, s, a =>
    let rep := getCell s a
    if rep.size == 0 then LlrbNode.nil
    else LlrbNode.node rep.entry rep.color rep.size
      (readTreeH fuel s rep.left) (readTreeH fuel s rep.right)

/-- In-order traversal of a rooted tree in a store, with fuel. -/
def inorderH [Inhabited K] [Inhabited V]
    (fuel : Nat) (s : StoreH K V) (a : Nat) : List (K × V) :=
  LlrbNode.inorder (readTreeH fuel s a)

/-- Iterated descent through left children from an address. -/
def leftDescH [Inhabited K] [Inhabited V] (s : StoreH K V) :
    Nat → Nat → Nat
  | 0, a => a
  | n + 1, a => leftDescH s n (leftH s a)

/-- A store is closed when every child address stored in a cell is a valid
address of the store. -/
abbrev ClosedH (s : StoreH K V) : Prop :=
  ∀ rep ∈ s, rep.left < s.length ∧ rep.right < s.length

/-- The store only grew and every cell at an address below n is exactly as
it was: the frame relation the persistence property asserts between the
store before and after an insert, with n the pre-call allocation mark. -/
def FrameGe [Inhabited K] [Inhabited V] (n : Nat) (s s' : StoreH K V) :
    Prop :=
  s.length ≤ s'.length ∧ ∀ i, i < n → getCell s' i = getCell s i

end Heap

/-
  Theorems.  First: basic facts about the pure embedding.
-/

namespace LlrbNode

variable {K V : Type}

@[simp] theorem size_nil : (nil : LlrbNode K V).size = 0 := rfl

@[simp] theorem size_node (e : K × V) (c : Color) (s : Nat)
    (l r : LlrbNode K V) : (node e c s l r).size = s := rfl

@[simp] theorem color_nil : (nil : LlrbNode K V).color = Color.Black := rfl

@[simp] theorem color_node (e : K × V) (c : Color) (s : Nat)
    (l r : LlrbNode K V) : (node e c s l r).color = c := rfl

@[simp] theorem left_nil : (nil : LlrbNode K V).left = nil := rfl

@[simp] theorem left_node (e : K × V) (c : Color) (s : Nat)
    (l r : LlrbNode K V) : (node e c s l r).left = l := rfl

@[simp] theorem right_nil : (nil : LlrbNode K V).right = nil := rfl

@[simp] theorem right_node (e : K × V) (c : Color) (s : Nat)
    (l r : LlrbNode K V) : (node e c s l r).right = r := rfl

@[simp] theorem entry_node [Inhabited K] [Inhabited V] (e : K × V)
    (c : Color) (s : Nat) (l r : LlrbNode K V) :
    (node e c s l r).entry = e := rfl

@[simp] theorem red_nil : (nil : LlrbNode K V).red = false := rfl

@[simp] theorem red_node_red (e : K × V) (s : Nat) (l r : LlrbNode K V) :
    (node e Color.Red s l r).red = true := rfl

@[simp] theorem red_node_black (e : K × V) (s : Nat) (l r : LlrbNode K V) :
    (node e Color.Black s l r).red = false := rfl

theorem red_node (e : K × V) (c : Color) (s : Nat) (l r : LlrbNode K V) :
    (node e c s l r).red = (c == Color.Red) := rfl

@[simp] theorem inorder_nil : (nil : LlrbNode K V).inorder = [] := rfl

@[simp] theorem inorder_node (e : K × V) (c : Color) (s : Nat)
    (l r : LlrbNode K V) :
    (node e c s l r).inorder = l.inorder ++ e :: r.inorder := rfl

@[simp] theorem count_nil : (nil : LlrbNode K V).count = 0 := rfl

@[simp] theorem count_node (e : K × V) (c : Color) (s : Nat)
    (l r : LlrbNode K V) :
    (node e c s l r).count = l.count + 1 + r.count := rfl

theorem eq_node_of_red {t : LlrbNode K V} (h : red t = true) :
    ∃ e s l r, t = node e Color.Red s l r := by
  cases t with
  | nil => simp at h
  | node e c s l r =>
    cases c with
    | Black => simp at h
    | Red => exact ⟨e, s, l, r, rfl⟩

theorem color_eq_black_of_not_red {t : LlrbNode K V} (h : red t = false) :
    color t = Color.Black := by
  cases t with
  | nil => rfl
  | node e c s l r => cases c with
    | Black => rfl
    | Red => simp at h

theorem red_eq_false_iff {t : LlrbNode K V} :
    red t = false ↔ color t = Color.Black := by
  constructor
  · exact color_eq_black_of_not_red
  · intro h
    cases t with
    | nil => rfl
    | node e c s l r =>
      simp only [color_node] at h
      simp [h]

theorem count_eq_length_inorder (t : LlrbNode K V) :
    count t = (inorder t).length := by
  induction t with
  | nil => rfl
  | node e c s l r ihl ihr =>
    simp [count, inorder, ihl, ihr]
    omega

theorem FixUp_eq_steps [Inhabited K] [Inhabited V] (t : LlrbNode K V) :
    FixUp t = flipStep (rotateRightStep (rotateLeftStep (resize t))) := rfl

theorem inorder_resize (t : LlrbNode K V) :
    inorder (resize t) = inorder t := by
  cases t <;> rfl

theorem inorder_RotateLeft_node [Inhabited K] [Inhabited V]
    (e : K × V) (c : Color) (s : Nat) (l : LlrbNode K V)
    (er : K × V) (cr : Color) (sr : Nat) (rl rr : LlrbNode K V) :
    inorder (RotateLeft (node e c s l (node er cr sr rl rr))) =
      inorder (node e c s l (node er cr sr rl rr)) := by
  simp [RotateLeft, mkRep, inorder]

theorem inorder_RotateRight_node [Inhabited K] [Inhabited V]
    (e : K × V) (c : Color) (s : Nat)
    (el : K × V) (cl : Color) (sl : Nat) (ll lr : LlrbNode K V)
    (r : LlrbNode K V) :
    inorder (RotateRight (node e c s (node el cl sl ll lr) r)) =
      inorder (node e c s (node el cl sl ll lr) r) := by
  simp [RotateRight, mkRep, inorder]

theorem inorder_rotateLeftStep [Inhabited K] [Inhabited V]
    (t : LlrbNode K V) : inorder (rotateLeftStep t) = inorder t := by
  cases t with
  | nil => rfl
  | node e c s l r =>
    by_cases hr : r.red = true
    · obtain ⟨er, sr, rl, rr, rfl⟩ := eq_node_of_red hr
      by_cases hl : l.red = true
      · simp [rotateLeftStep, hl]
      · simp only [Bool.not_eq_true] at hl
        simp [rotateLeftStep, hl, RotateLeft, mkRep]
    · simp only [Bool.not_eq_true] at hr
      simp [rotateLeftStep, hr]

theorem inorder_rotateRightStep [Inhabited K] [Inhabited V]
    (t : LlrbNode K V) : inorder (rotateRightStep t) = inorder t := by
  cases t with
  | nil => rfl
  | node e c s l r =>
    by_cases hl : l.red = true
    · obtain ⟨el, sl, ll, lr, rfl⟩ := eq_node_of_red hl
      by_cases hll : ll.red = true
      · simp [rotateRightStep, hll, RotateRight, mkRep]
      · simp only [Bool.not_eq_true] at hll
        simp [rotateRightStep, hll]
    · simp only [Bool.not_eq_true] at hl
      simp [rotateRightStep, hl]

theorem inorder_flipStep [Inhabited K] [Inhabited V]
    (t : LlrbNode K V) : inorder (flipStep t) = inorder t := by
  cases t with
  | nil => rfl
  | node e c s l r =>
    by_cases hl : l.red = true
    · by_cases hr : r.red = true
      · obtain ⟨el, sl, ll, lr, rfl⟩ := eq_node_of_red hl
        obtain ⟨er, sr, rl, rr, rfl⟩ := eq_node_of_red hr
        simp [flipStep, FlipColor, flipChild]
      · simp only [Bool.not_eq_true] at hr
        simp [flipStep, hr]
    · simp only [Bool.not_eq_true] at hl
      simp [flipStep, hl]

theorem inorder_FixUp [Inhabited K] [Inhabited V] (t : LlrbNode K V) :
    inorder (FixUp t) = inorder t := by
  rw [FixUp_eq_steps, inorder_flipStep, inorder_rotateRightStep,
    inorder_rotateLeftStep, inorder_resize]

theorem inorder_paintBlack (t : LlrbNode K V) :
    inorder (paintBlack t) = inorder t := by
  cases t <;> rfl

theorem inorder_insert_eq_inorder_InnerInsert [Inhabited K] [Inhabited V]
    (cmp : K → K → Bool) (k : K) (v : V) (t : LlrbNode K V) :
    inorder (insert cmp k v t) = inorder (InnerInsert cmp k v t) := by
  simp only [insert]
  by_cases h : red (InnerInsert cmp k v t) = true
  · simp [h, inorder_paintBlack]
  · simp [Bool.not_eq_true] at h
    simp [h]

end LlrbNode

/-
  Facts about the comparator contract and list-level insertion.
-/

theorem IsSTO.asymm {K : Type} {cmp : K → K → Bool} (h : IsSTO cmp) :
    ∀ a b, cmp a b = true → cmp b a = false := by
  intro a b hab
  by_contra hba
  simp only [Bool.not_eq_false] at hba
  have := h.lt_trans a b a hab hba
  rw [h.irrefl a] at this
  exact Bool.false_ne_true this

theorem IsSTO.lt_of_lt_of_eqv {K : Type} {cmp : K → K → Bool}
    (h : IsSTO cmp) {a e k : K} (hae : cmp a e = true)
    (h1 : cmp k e = false) (h2 : cmp e k = false) :
    cmp a k = true ∧ cmp k a = false := by
  have hne : a ≠ k := by
    intro hek
    subst hek
    rw [hae] at h1
    simp at h1
  rcases h.total a k hne with hak | hka
  · exact ⟨hak, h.asymm a k hak⟩
  · exfalso
    have := h.lt_trans k a e hka hae
    rw [this] at h1
    simp at h1

theorem IsSTO.gt_of_eqv_of_lt {K : Type} {cmp : K → K → Bool}
    (h : IsSTO cmp) {b e k : K} (heb : cmp e b = true)
    (h1 : cmp k e = false) (h2 : cmp e k = false) :
    cmp k b = true ∧ cmp b k = false := by
  have hne : k ≠ b := by
    intro hek
    subst hek
    rw [heb] at h2
    simp at h2
  rcases h.total k b hne with hkb | hbk
  · exact ⟨hkb, h.asymm k b hkb⟩
  · exfalso
    have := h.lt_trans e b k heb hbk
    rw [this] at h2
    simp at h2

theorem linsert_nil {K V : Type} (cmp : K → K → Bool) (k : K) (v : V) :
    linsert cmp k v [] = [(k, v)] := rfl

theorem linsert_cons_before {K V : Type} (cmp : K → K → Bool) (k : K)
    (v : V) (a : K × V) (l : List (K × V)) (h1 : cmp k a.1 = true) :
    linsert cmp k v (a :: l) = (k, v) :: a :: l := by
  simp [linsert, h1]

theorem linsert_cons_lt {K V : Type} (cmp : K → K → Bool) (k : K) (v : V)
    (a : K × V) (l : List (K × V)) (h1 : cmp k a.1 = false)
    (h2 : cmp a.1 k = true) :
    linsert cmp k v (a :: l) = a :: linsert cmp k v l := by
  simp [linsert, h1, h2]

theorem linsert_cons_eqv {K V : Type} (cmp : K → K → Bool) (k : K) (v : V)
    (a : K × V) (l : List (K × V)) (h1 : cmp k a.1 = false)
    (h2 : cmp a.1 k = false) :
    linsert cmp k v (a :: l) = (a.1, v) :: l := by
  simp [linsert, h1, h2]

theorem linsert_append_before {K V : Type} (cmp : K → K → Bool) (k : K)
    (v : V) (e : K × V) (R : List (K × V)) (hk : cmp k e.1 = true) :
    ∀ L : List (K × V),
      linsert cmp k v (L ++ e :: R) = linsert cmp k v L ++ e :: R := by
  intro L
  induction L with
  | nil =>
    rw [List.nil_append, linsert_cons_before cmp k v e R hk, linsert_nil]
    rfl
  | cons a L ih =>
    by_cases h1 : cmp k a.1 = true
    · rw [List.cons_append, linsert_cons_before cmp k v a _ h1,
        linsert_cons_before cmp k v a _ h1]
      rfl
    · simp only [Bool.not_eq_true] at h1
      by_cases h2 : cmp a.1 k = true
      · rw [List.cons_append, linsert_cons_lt cmp k v a _ h1 h2,
          linsert_cons_lt cmp k v a _ h1 h2, ih]
        rfl
      · simp only [Bool.not_eq_true] at h2
        rw [List.cons_append, linsert_cons_eqv cmp k v a _ h1 h2,
          linsert_cons_eqv cmp k v a _ h1 h2]
        rfl

theorem linsert_append_after {K V : Type} {cmp : K → K → Bool}
    (hsto : IsSTO cmp) (k : K) (v : V) (e : K × V) (R : List (K × V))
    (he : cmp e.1 k = true) :
    ∀ L : List (K × V), (∀ a ∈ L, cmp a.1 e.1 = true) →
      linsert cmp k v (L ++ e :: R) = L ++ e :: linsert cmp k v R := by
  intro L
  induction L with
  | nil =>
    intro _
    rw [List.nil_append, linsert_cons_lt cmp k v e R (hsto.asymm e.1 k he) he,
      List.nil_append]
  | cons a L ih =>
    intro ha
    have hae : cmp a.1 e.1 = true := ha a (List.mem_cons_self a L)
    have hak : cmp a.1 k = true := hsto.lt_trans a.1 e.1 k hae he
    have hka : cmp k a.1 = false := hsto.asymm a.1 k hak
    rw [List.cons_append, linsert_cons_lt cmp k v a _ hka hak,
      ih (fun b hb => ha b (List.mem_cons_of_mem a hb)), List.cons_append]

theorem linsert_append_eqv {K V : Type} (cmp : K → K → Bool) (k : K)
    (v : V) (e : K × V) (R : List (K × V)) (h1 : cmp k e.1 = false)
    (h2 : cmp e.1 k = false) :
    ∀ L : List (K × V), (∀ a ∈ L, cmp a.1 k = true ∧ cmp k a.1 = false) →
      linsert cmp k v (L ++ e :: R) = L ++ (e.1, v) :: R := by
  intro L
  induction L with
  | nil =>
    intro _
    rw [List.nil_append, linsert_cons_eqv cmp k v e R h1 h2, List.nil_append]
  | cons a L ih =>
    intro ha
    obtain ⟨hak, hka⟩ := ha a (List.mem_cons_self a L)
    rw [List.cons_append, linsert_cons_lt cmp k v a _ hka hak,
      ih (fun b hb => ha b (List.mem_cons_of_mem a hb)), List.cons_append]

theorem fst_mem_of_mem_linsert {K V : Type} (cmp : K → K → Bool) (k : K)
    (v : V) : ∀ l : List (K × V), ∀ b ∈ linsert cmp k v l,
      b.1 = k ∨ b.1 ∈ l.map Prod.fst := by
  intro l
  induction l with
  | nil =>
    intro b hb
    rw [linsert_nil] at hb
    obtain rfl := List.mem_singleton.mp hb
    exact Or.inl rfl
  | cons a l ih =>
    intro b hb
    by_cases h1 : cmp k a.1 = true
    · rw [linsert_cons_before cmp k v a l h1] at hb
      rcases List.mem_cons.mp hb with rfl | hb
      · exact Or.inl rfl
      · exact Or.inr (List.mem_map_of_mem Prod.fst hb)
    · simp only [Bool.not_eq_true] at h1
      by_cases h2 : cmp a.1 k = true
      · rw [linsert_cons_lt cmp k v a l h1 h2] at hb
        rcases List.mem_cons.mp hb with heq | hb
        · rw [heq]
          exact Or.inr (List.mem_map_of_mem Prod.fst (List.mem_cons_self a l))
        · rcases ih b hb with h | h
          · exact Or.inl h
          · refine Or.inr ?_
            rw [List.map_cons]
            exact List.mem_cons_of_mem a.1 h
      · simp only [Bool.not_eq_true] at h2
        rw [linsert_cons_eqv cmp k v a l h1 h2] at hb
        rcases List.mem_cons.mp hb with heq | hb
        · rw [heq]
          refine Or.inr ?_
          rw [List.map_cons]
          exact List.mem_cons_self a.1 _
        · refine Or.inr ?_
          rw [List.map_cons]
          exact List.mem_cons_of_mem a.1 (List.mem_map_of_mem Prod.fst hb)

theorem ascending_linsert {K V : Type} {cmp : K → K → Bool}
    (hsto : IsSTO cmp) (k : K) (v : V) :
    ∀ l : List (K × V), ascending cmp l →
      ascending cmp (linsert cmp k v l) := by
  intro l
  induction l with
  | nil =>
    intro _
    rw [ascending, linsert_nil]
    exact List.pairwise_singleton _ _
  | cons a l ih =>
    intro hp
    rcases List.pairwise_cons.mp hp with ⟨ha, hl⟩
    by_cases h1 : cmp k a.1 = true
    · rw [ascending, linsert_cons_before cmp k v a l h1]
      apply List.pairwise_cons.mpr
      refine ⟨?_, hp⟩
      intro b hb
      rcases List.mem_cons.mp hb with rfl | hb
      · exact h1
      · exact hsto.lt_trans k a.1 b.1 h1 (ha b hb)
    · simp only [Bool.not_eq_true] at h1
      by_cases h2 : cmp a.1 k = true
      · rw [ascending, linsert_cons_lt cmp k v a l h1 h2]
        apply List.pairwise_cons.mpr
        refine ⟨?_, ih hl⟩
        intro b hb
        rcases fst_mem_of_mem_linsert cmp k v l b hb with h | h
        · rw [h]; exact h2
        · rw [List.mem_map] at h
          obtain ⟨c, hc, hcb⟩ := h
          rw [← hcb]
          exact ha c hc
      · simp only [Bool.not_eq_true] at h2
        rw [ascending, linsert_cons_eqv cmp k v a l h1 h2]
        apply List.pairwise_cons.mpr
        exact ⟨fun b hb => ha b hb, hl⟩

theorem perm_linsert_fresh {K V : Type} (cmp : K → K → Bool) (k : K)
    (v : V) : ∀ l : List (K × V),
      (∀ e ∈ l, cmp k e.1 = true ∨ cmp e.1 k = true) →
      (linsert cmp k v l).Perm ((k, v) :: l) := by
  intro l
  induction l with
  | nil =>
    intro _
    rw [linsert_nil]
  | cons a l ih =>
    intro h
    by_cases h1 : cmp k a.1 = true
    · rw [linsert_cons_before cmp k v a l h1]
    · simp only [Bool.not_eq_true] at h1
      by_cases h2 : cmp a.1 k = true
      · rw [linsert_cons_lt cmp k v a l h1 h2]
        have step : (a :: linsert cmp k v l).Perm (a :: (k, v) :: l) :=
          List.Perm.cons a (ih (fun e he => h e (List.mem_cons_of_mem a he)))
        exact step.trans (List.Perm.swap (k, v) a l)
      · simp only [Bool.not_eq_true] at h2
        exfalso
        rcases h a (List.mem_cons_self a l) with hc | hc
        · rw [h1] at hc; exact Bool.false_ne_true hc
        · rw [h2] at hc; exact Bool.false_ne_true hc

theorem length_linsert_fresh {K V : Type} (cmp : K → K → Bool) (k : K)
    (v : V) (l : List (K × V))
    (h : ∀ e ∈ l, cmp k e.1 = true ∨ cmp e.1 k = true) :
    (linsert cmp k v l).length = l.length + 1 := by
  have := (perm_linsert_fresh cmp k v l h).length_eq
  simpa using this

theorem length_linsert_le {K V : Type} (cmp : K → K → Bool) (k : K)
    (v : V) : ∀ l : List (K × V),
      (linsert cmp k v l).length ≤ l.length + 1 := by
  intro l
  induction l with
  | nil =>
    rw [linsert_nil]
    simp
  | cons a l ih =>
    by_cases h1 : cmp k a.1 = true
    · rw [linsert_cons_before cmp k v a l h1]
      simp
    · simp only [Bool.not_eq_true] at h1
      by_cases h2 : cmp a.1 k = true
      · rw [linsert_cons_lt cmp k v a l h1 h2]
        simp only [List.length_cons]
        omega
      · simp only [Bool.not_eq_true] at h2
        rw [linsert_cons_eqv cmp k v a l h1 h2]
        simp only [List.length_cons]
        omega

/-
  The effect of one insert on the in-order entry sequence.
-/

namespace LlrbNode

theorem noZeroSize_node {e : K × V} {c : Color} {s : Nat}
    {l r : LlrbNode K V} (h : noZeroSize (node e c s l r) = true) :
    s ≠ 0 ∧ noZeroSize l = true ∧ noZeroSize r = true := by
  simp only [noZeroSize, Bool.and_eq_true, decide_eq_true_eq] at h
  exact ⟨h.1.1, h.1.2, h.2⟩

theorem beq_zero_eq_false_of_ne {s : Nat} (h : s ≠ 0) : (s == 0) = false := by
  simp [h]

theorem InnerInsert_nil [Inhabited K] [Inhabited V] (cmp : K → K → Bool)
    (k : K) (v : V) :
    InnerInsert cmp k v (nil : LlrbNode K V) = node (k, v) Color.Red 1 nil nil := rfl

theorem InnerInsert_node_zero [Inhabited K] [Inhabited V]
    (cmp : K → K → Bool) (k : K) (v : V) (e : K × V) (c : Color)
    (l r : LlrbNode K V) :
    InnerInsert cmp k v (node e c 0 l r) = node (k, v) Color.Red 1 nil nil := rfl

theorem InnerInsert_node_lt [Inhabited K] [Inhabited V]
    {cmp : K → K → Bool} {k : K} (v : V) {e : K × V} {c : Color} {s : Nat}
    (l r : LlrbNode K V) (hs : s ≠ 0) (h1 : cmp k e.1 = true) :
    InnerInsert cmp k v (node e c s l r) =
      FixUp (node e c s (InnerInsert cmp k v l) r) := by
  simp [InnerInsert, beq_zero_eq_false_of_ne hs, h1]

theorem InnerInsert_node_gt [Inhabited K] [Inhabited V]
    {cmp : K → K → Bool} {k : K} (v : V) {e : K × V} {c : Color} {s : Nat}
    (l r : LlrbNode K V) (hs : s ≠ 0) (h1 : cmp k e.1 = false)
    (h2 : cmp e.1 k = true) :
    InnerInsert cmp k v (node e c s l r) =
      FixUp (node e c s l (InnerInsert cmp k v r)) := by
  simp [InnerInsert, beq_zero_eq_false_of_ne hs, h1, h2]

theorem InnerInsert_node_eqv [Inhabited K] [Inhabited V]
    {cmp : K → K → Bool} {k : K} (v : V) {e : K × V} {c : Color} {s : Nat}
    (l r : LlrbNode K V) (hs : s ≠ 0) (h1 : cmp k e.1 = false)
    (h2 : cmp e.1 k = false) :
    InnerInsert cmp k v (node e c s l r) = node (e.1, v) c s l r := by
  simp [InnerInsert, beq_zero_eq_false_of_ne hs, h1, h2]

theorem ascending_node_parts (cmp : K → K → Bool) {e : K × V} {c : Color}
    {s : Nat} {l r : LlrbNode K V}
    (h : ascending cmp ((node e c s l r).inorder)) :
    ascending cmp l.inorder ∧ ascending cmp r.inorder ∧
      (∀ a ∈ l.inorder, cmp a.1 e.1 = true) ∧
      (∀ b ∈ r.inorder, cmp e.1 b.1 = true) := by
  rw [inorder_node] at h
  simp only [ascending, List.pairwise_append, List.pairwise_cons] at h
  obtain ⟨h1, ⟨h4, h5⟩, h3⟩ := h
  exact ⟨h1, h5, fun a ha => h3 a ha e (List.mem_cons_self e _), h4⟩

theorem inorder_InnerInsert [Inhabited K] [Inhabited V]
    {cmp : K → K → Bool} (hsto : IsSTO cmp) (k : K) (v : V) :
    ∀ t : LlrbNode K V, noZeroSize t = true → ascending cmp t.inorder →
      (InnerInsert cmp k v t).inorder = linsert cmp k v t.inorder := by
  intro t
  induction t with
  | nil => intro _ _; rfl
  | node e c s l r ihl ihr =>
    intro hnz hasc
    obtain ⟨hs, hnzl, hnzr⟩ := noZeroSize_node hnz
    obtain ⟨hascl, hascr, hle, her⟩ := ascending_node_parts cmp hasc
    by_cases h1 : cmp k e.1 = true
    · rw [InnerInsert_node_lt v l r hs h1, inorder_FixUp, inorder_node,
        ihl hnzl hascl, inorder_node,
        linsert_append_before cmp k v e r.inorder h1]
    · simp only [Bool.not_eq_true] at h1
      by_cases h2 : cmp e.1 k = true
      · rw [InnerInsert_node_gt v l r hs h1 h2, inorder_FixUp, inorder_node,
          ihr hnzr hascr, inorder_node,
          linsert_append_after hsto k v e r.inorder h2 l.inorder hle]
      · simp only [Bool.not_eq_true] at h2
        rw [InnerInsert_node_eqv v l r hs h1 h2, inorder_node, inorder_node,
          linsert_append_eqv cmp k v e r.inorder h1 h2 l.inorder
            (fun a ha => hsto.lt_of_lt_of_eqv (hle a ha) h1 h2)]

theorem inorder_insert [Inhabited K] [Inhabited V] {cmp : K → K → Bool}
    (hsto : IsSTO cmp) (k : K) (v : V) (t : LlrbNode K V)
    (hnz : noZeroSize t = true) (hasc : ascending cmp t.inorder) :
    (insert cmp k v t).inorder = linsert cmp k v t.inorder := by
  rw [inorder_insert_eq_inorder_InnerInsert,
    inorder_InnerInsert hsto k v t hnz hasc]

/-
  Stored sizes: every operation keeps the stored size field equal to the
  subtree entry count truncated modulo 2 ^ 31.
-/

theorem sizeMod_eq : sizeMod = 2147483648 := by norm_num [sizeMod]

theorem sizeMod_add_helper (a b : Nat) :
    (a % sizeMod + 1 + b % sizeMod) % sizeMod = (a + 1 + b) % sizeMod := by
  rw [sizeMod_eq]
  omega

theorem sizeConsistent_node_iff {e : K × V} {c : Color} {s : Nat}
    {l r : LlrbNode K V} :
    sizeConsistent (node e c s l r) = true ↔
      s = (count l + 1 + count r) % sizeMod ∧ sizeConsistent l = true ∧
        sizeConsistent r = true := by
  simp only [sizeConsistent, Bool.and_eq_true, beq_iff_eq]
  tauto

theorem size_eq_count_mod {t : LlrbNode K V}
    (h : sizeConsistent t = true) : size t = count t % sizeMod := by
  cases t with
  | nil => rfl
  | node e c s l r =>
    obtain ⟨hs, _, _⟩ := sizeConsistent_node_iff.mp h
    simpa using hs

theorem count_rotateLeftStep [Inhabited K] [Inhabited V] (t : LlrbNode K V) :
    count (rotateLeftStep t) = count t := by
  rw [count_eq_length_inorder, count_eq_length_inorder,
    inorder_rotateLeftStep]

theorem count_rotateRightStep [Inhabited K] [Inhabited V]
    (t : LlrbNode K V) : count (rotateRightStep t) = count t := by
  rw [count_eq_length_inorder, count_eq_length_inorder,
    inorder_rotateRightStep]

theorem count_flipStep [Inhabited K] [Inhabited V] (t : LlrbNode K V) :
    count (flipStep t) = count t := by
  rw [count_eq_length_inorder, count_eq_length_inorder, inorder_flipStep]

theorem count_FixUp [Inhabited K] [Inhabited V] (t : LlrbNode K V) :
    count (FixUp t) = count t := by
  rw [count_eq_length_inorder, count_eq_length_inorder, inorder_FixUp]

theorem sizeConsistent_rotateLeftStep [Inhabited K] [Inhabited V]
    {t : LlrbNode K V} (h : sizeConsistent t = true) :
    sizeConsistent (rotateLeftStep t) = true := by
  cases t with
  | nil => exact h
  | node e c s l r =>
    by_cases hr : r.red = true
    · obtain ⟨er, sr, rl, rr, rfl⟩ := eq_node_of_red hr
      by_cases hl : l.red = true
      · simp only [rotateLeftStep, right_node, hl, left_node,
          Bool.not_true, Bool.and_false]
        exact h
      · simp only [Bool.not_eq_true] at hl
        obtain ⟨hs, hcl, hcr⟩ := sizeConsistent_node_iff.mp h
        obtain ⟨hsr, hcrl, hcrr⟩ := sizeConsistent_node_iff.mp hcr
        simp only [rotateLeftStep, right_node, red_node_red, left_node, hl,
          Bool.not_false, Bool.and_true, if_true, RotateLeft, mkRep]
        rw [sizeConsistent_node_iff]
        refine ⟨?_, ?_, hcrr⟩
        · rw [hs]
          simp only [count_node]
          congr 1
          omega
        · rw [sizeConsistent_node_iff]
          refine ⟨?_, hcl, hcrl⟩
          rw [size_eq_count_mod hcl, size_eq_count_mod hcrl,
            sizeMod_add_helper]
    · simp only [Bool.not_eq_true] at hr
      simp only [rotateLeftStep, right_node, hr, Bool.false_and, if_false]
      exact h

theorem sizeConsistent_rotateRightStep [Inhabited K] [Inhabited V]
    {t : LlrbNode K V} (h : sizeConsistent t = true) :
    sizeConsistent (rotateRightStep t) = true := by
  cases t with
  | nil => exact h
  | node e c s l r =>
    by_cases hl : l.red = true
    · obtain ⟨el, sl, ll, lr, rfl⟩ := eq_node_of_red hl
      by_cases hll : ll.red = true
      · obtain ⟨hs, hcl, hcr⟩ := sizeConsistent_node_iff.mp h
        obtain ⟨hsl, hcll, hclr⟩ := sizeConsistent_node_iff.mp hcl
        simp only [rotateRightStep, left_node, red_node_red, hll,
          Bool.and_true, if_true, RotateRight, mkRep]
        rw [sizeConsistent_node_iff]
        refine ⟨?_, hcll, ?_⟩
        · rw [hs]
          simp only [right_node, count_node]
          congr 1
          omega
        · rw [sizeConsistent_node_iff]
          refine ⟨?_, hclr, hcr⟩
          simp only [right_node]
          rw [size_eq_count_mod hclr, size_eq_count_mod hcr,
            sizeMod_add_helper]
      · simp only [Bool.not_eq_true] at hll
        simp only [rotateRightStep, left_node, red_node_red, hll,
          Bool.true_and, if_false]
        exact h
    · simp only [Bool.not_eq_true] at hl
      simp only [rotateRightStep, left_node, hl, Bool.false_and, if_false]
      exact h

theorem sizeConsistent_flipChild_of_red [Inhabited K] [Inhabited V]
    {t : LlrbNode K V} (hr : red t = true) (h : sizeConsistent t = true) :
    sizeConsistent (flipChild t) = true := by
  obtain ⟨e, s, l, r, rfl⟩ := eq_node_of_red hr
  obtain ⟨hs, hcl, hcr⟩ := sizeConsistent_node_iff.mp h
  simp only [flipChild]
  rw [sizeConsistent_node_iff]
  exact ⟨by simpa using hs, hcl, hcr⟩

theorem sizeConsistent_flipStep [Inhabited K] [Inhabited V]
    {t : LlrbNode K V} (h : sizeConsistent t = true) :
    sizeConsistent (flipStep t) = true := by
  cases t with
  | nil => exact h
  | node e c s l r =>
    by_cases hl : l.red = true
    · by_cases hr : r.red = true
      · obtain ⟨hs, hcl, hcr⟩ := sizeConsistent_node_iff.mp h
        simp only [flipStep, left_node, right_node, hl, hr, Bool.and_self,
          if_true, FlipColor]
        rw [sizeConsistent_node_iff]
        refine ⟨?_, sizeConsistent_flipChild_of_red hl hcl,
          sizeConsistent_flipChild_of_red hr hcr⟩
        have cl : count (flipChild l) = count l := by
          obtain ⟨el, sl, ll, lr, rfl⟩ := eq_node_of_red hl
          rfl
        have cr : count (flipChild r) = count r := by
          obtain ⟨er, sr, rl, rr, rfl⟩ := eq_node_of_red hr
          rfl
        rw [cl, cr]
        exact hs
      · simp only [Bool.not_eq_true] at hr
        simp only [flipStep, left_node, right_node, hr, Bool.and_false,
          if_false]
        exact h
    · simp only [Bool.not_eq_true] at hl
      simp only [flipStep, left_node, hl, Bool.false_and, if_false]
      exact h

theorem sizeConsistent_resize_node [Inhabited K] [Inhabited V] (e : K × V)
    (c : Color) (s : Nat) {l r : LlrbNode K V}
    (hl : sizeConsistent l = true) (hr : sizeConsistent r = true) :
    sizeConsistent (resize (node e c s l r)) = true := by
  simp only [resize]
  rw [sizeConsistent_node_iff]
  refine ⟨?_, hl, hr⟩
  rw [size_eq_count_mod hl, size_eq_count_mod hr, sizeMod_add_helper]

theorem sizeConsistent_FixUp_node [Inhabited K] [Inhabited V] (e : K × V)
    (c : Color) (s : Nat) {l r : LlrbNode K V}
    (hl : sizeConsistent l = true) (hr : sizeConsistent r = true) :
    sizeConsistent (FixUp (node e c s l r)) = true := by
  rw [FixUp_eq_steps]
  exact sizeConsistent_flipStep (sizeConsistent_rotateRightStep
    (sizeConsistent_rotateLeftStep
      (sizeConsistent_resize_node e c s hl hr)))

theorem sizeConsistent_InnerInsert [Inhabited K] [Inhabited V]
    (cmp : K → K → Bool) (k : K) (v : V) :
    ∀ t : LlrbNode K V, sizeConsistent t = true →
      sizeConsistent (InnerInsert cmp k v t) = true := by
  intro t
  induction t with
  | nil =>
    intro _
    rw [InnerInsert_nil]
    rfl
  | node e c s l r ihl ihr =>
    intro h
    obtain ⟨hs, hcl, hcr⟩ := sizeConsistent_node_iff.mp h
    by_cases hz : s = 0
    · subst hz
      rw [InnerInsert_node_zero]
      rfl
    · by_cases h1 : cmp k e.1 = true
      · rw [InnerInsert_node_lt v l r hz h1]
        exact sizeConsistent_FixUp_node e c s (ihl hcl) hcr
      · simp only [Bool.not_eq_true] at h1
        by_cases h2 : cmp e.1 k = true
        · rw [InnerInsert_node_gt v l r hz h1 h2]
          exact sizeConsistent_FixUp_node e c s hcl (ihr hcr)
        · simp only [Bool.not_eq_true] at h2
          rw [InnerInsert_node_eqv v l r hz h1 h2]
          rw [sizeConsistent_node_iff]
          exact ⟨by simpa using hs, hcl, hcr⟩

theorem sizeConsistent_paintBlack {t : LlrbNode K V}
    (h : sizeConsistent t = true) : sizeConsistent (paintBlack t) = true := by
  cases t with
  | nil => exact h
  | node e c s l r =>
    obtain ⟨hs, hcl, hcr⟩ := sizeConsistent_node_iff.mp h
    simp only [paintBlack]
    rw [sizeConsistent_node_iff]
    exact ⟨by simpa using hs, hcl, hcr⟩

theorem count_paintBlack (t : LlrbNode K V) :
    count (paintBlack t) = count t := by
  cases t <;> rfl

theorem sizeConsistent_insert [Inhabited K] [Inhabited V]
    (cmp : K → K → Bool) (k : K) (v : V) (t : LlrbNode K V)
    (h : sizeConsistent t = true) :
    sizeConsistent (insert cmp k v t) = true := by
  simp only [insert]
  by_cases hred : (InnerInsert cmp k v t).red = true
  · simp only [hred, if_true]
    exact sizeConsistent_paintBlack (sizeConsistent_InnerInsert cmp k v t h)
  · simp only [Bool.not_eq_true] at hred
    simp only [hred, Bool.false_eq_true, if_false]
    exact sizeConsistent_InnerInsert cmp k v t h

theorem count_InnerInsert_le [Inhabited K] [Inhabited V]
    (cmp : K → K → Bool) (k : K) (v : V) :
    ∀ t : LlrbNode K V, count (InnerInsert cmp k v t) ≤ count t + 1 := by
  intro t
  induction t with
  | nil =>
    rw [InnerInsert_nil]
    simp
  | node e c s l r ihl ihr =>
    by_cases hz : s = 0
    · subst hz
      rw [InnerInsert_node_zero]
      simp only [count_node, count_nil]
      omega
    · by_cases h1 : cmp k e.1 = true
      · rw [InnerInsert_node_lt v l r hz h1, count_FixUp]
        simp only [count_node]
        omega
      · simp only [Bool.not_eq_true] at h1
        by_cases h2 : cmp e.1 k = true
        · rw [InnerInsert_node_gt v l r hz h1 h2, count_FixUp]
          simp only [count_node]
          omega
        · simp only [Bool.not_eq_true] at h2
          rw [InnerInsert_node_eqv v l r hz h1 h2]
          simp only [count_node]
          omega

theorem count_insert_le [Inhabited K] [Inhabited V] (cmp : K → K → Bool)
    (k : K) (v : V) (t : LlrbNode K V) :
    count (insert cmp k v t) ≤ count t + 1 := by
  simp only [insert]
  by_cases hred : (InnerInsert cmp k v t).red = true
  · simp only [hred, if_true]
    rw [count_paintBlack]
    exact count_InnerInsert_le cmp k v t
  · simp only [Bool.not_eq_true] at hred
    simp only [hred, Bool.false_eq_true, if_false]
    exact count_InnerInsert_le cmp k v t

theorem noZeroSize_of_sizeConsistent :
    ∀ t : LlrbNode K V, sizeConsistent t = true → count t < sizeMod →
      noZeroSize t = true := by
  intro t
  induction t with
  | nil => intro _ _; rfl
  | node e c s l r ihl ihr =>
    intro h hc
    obtain ⟨hs, hcl, hcr⟩ := sizeConsistent_node_iff.mp h
    simp only [count_node] at hc
    simp only [noZeroSize, Bool.and_eq_true, decide_eq_true_eq]
    refine ⟨⟨?_, ihl hcl (by omega)⟩, ihr hcr (by omega)⟩
    rw [hs, Nat.mod_eq_of_lt (by omega)]
    omega

/-
  The coloring and balance discipline through FixUp and InnerInsert.
-/

@[simp] theorem opposite_Red : Color.Red.opposite = Color.Black := rfl

@[simp] theorem opposite_Black : Color.Black.opposite = Color.Red := rfl

@[simp] theorem bh_nil : (nil : LlrbNode K V).bh = 0 := rfl

@[simp] theorem bh_node_black (e : K × V) (s : Nat) (l r : LlrbNode K V) :
    (node e Color.Black s l r).bh = l.bh + 1 := rfl

@[simp] theorem bh_node_red (e : K × V) (s : Nat) (l r : LlrbNode K V) :
    (node e Color.Red s l r).bh = l.bh := by
  simp [bh]

theorem ok_node_iff {e : K × V} {c : Color} {s : Nat} {l r : LlrbNode K V} :
    ok (node e c s l r) = true ↔
      ok l = true ∧ ok r = true ∧ r.red = false ∧
        (c = Color.Red → l.red = false) := by
  simp only [ok, Bool.and_eq_true, Bool.not_eq_true']
  constructor
  · rintro ⟨⟨⟨h1, h2⟩, h3⟩, h4⟩
    refine ⟨h1, h2, h3, ?_⟩
    intro hc
    subst hc
    simpa using h4
  · rintro ⟨h1, h2, h3, h4⟩
    refine ⟨⟨⟨h1, h2⟩, h3⟩, ?_⟩
    cases c with
    | Black => rfl
    | Red => simpa using h4 rfl

theorem okR_node_iff {e : K × V} {c : Color} {s : Nat} {l r : LlrbNode K V} :
    okR (node e c s l r) = true ↔
      ok l = true ∧ ok r = true ∧ r.red = false := by
  simp only [okR, Bool.and_eq_true, Bool.not_eq_true']
  tauto

theorem balanced_node_iff {e : K × V} {c : Color} {s : Nat}
    {l r : LlrbNode K V} :
    balanced (node e c s l r) = true ↔
      balanced l = true ∧ balanced r = true ∧ l.bh = r.bh := by
  simp only [balanced, Bool.and_eq_true, beq_iff_eq]
  tauto

theorem okR_of_ok {t : LlrbNode K V} (h : ok t = true) : okR t = true := by
  cases t with
  | nil => rfl
  | node e c s l r =>
    obtain ⟨h1, h2, h3, _⟩ := ok_node_iff.mp h
    exact okR_node_iff.mpr ⟨h1, h2, h3⟩

theorem ok_red_node_parts {e : K × V} {s : Nat} {l r : LlrbNode K V}
    (h : ok (node e Color.Red s l r) = true) :
    ok l = true ∧ ok r = true ∧ r.red = false ∧ l.red = false := by
  obtain ⟨h1, h2, h3, h4⟩ := ok_node_iff.mp h
  exact ⟨h1, h2, h3, h4 rfl⟩

theorem red_red_left_false_of_ok {t : LlrbNode K V} (h : ok t = true) :
    (t.red && t.left.red) = false := by
  cases t with
  | nil => rfl
  | node e c s l r =>
    cases c with
    | Black => rfl
    | Red =>
      obtain ⟨_, _, _, h4⟩ := ok_red_node_parts h
      simp [h4]

theorem flipChild_red_node [Inhabited K] [Inhabited V] (e : K × V) (s : Nat) (l r : LlrbNode K V) :
    flipChild (node e Color.Red s l r) = node e Color.Black s l r := rfl

theorem ok_flipChild_of_red [Inhabited K] [Inhabited V] {t : LlrbNode K V} (hr : red t = true)
    (h : ok t = true) : ok (flipChild t) = true := by
  obtain ⟨e, s, l, r, rfl⟩ := eq_node_of_red hr
  obtain ⟨h1, h2, h3, _⟩ := ok_red_node_parts h
  rw [flipChild_red_node, ok_node_iff]
  exact ⟨h1, h2, h3, by intro hc; cases hc⟩

theorem balanced_flipChild_of_red [Inhabited K] [Inhabited V] {t : LlrbNode K V} (hr : red t = true)
    (h : balanced t = true) : balanced (flipChild t) = true := by
  obtain ⟨e, s, l, r, rfl⟩ := eq_node_of_red hr
  rw [flipChild_red_node]
  rw [balanced_node_iff] at h ⊢
  exact h

theorem bh_flipChild_of_red [Inhabited K] [Inhabited V] {t : LlrbNode K V} (hr : red t = true) :
    (flipChild t).bh = t.bh + 1 := by
  obtain ⟨e, s, l, r, rfl⟩ := eq_node_of_red hr
  rw [flipChild_red_node]
  simp

theorem red_flipChild_of_red [Inhabited K] [Inhabited V] {t : LlrbNode K V} (hr : red t = true) :
    (flipChild t).red = false := by
  obtain ⟨e, s, l, r, rfl⟩ := eq_node_of_red hr
  rw [flipChild_red_node]
  simp

theorem rotateLeftStep_no [Inhabited K] [Inhabited V] {t : LlrbNode K V}
    (h : (t.right.red && !t.left.red) = false) : rotateLeftStep t = t := by
  simp [rotateLeftStep, h]

theorem rotateRightStep_no [Inhabited K] [Inhabited V] {t : LlrbNode K V}
    (h : (t.left.red && t.left.left.red) = false) :
    rotateRightStep t = t := by
  simp [rotateRightStep, h]

theorem flipStep_no [Inhabited K] [Inhabited V] {t : LlrbNode K V}
    (h : (t.left.red && t.right.red) = false) : flipStep t = t := by
  simp [flipStep, h]

/-- FixUp when no transformation fires: only the stored size is
recomputed. -/
theorem FixUp_plain [Inhabited K] [Inhabited V] (e : K × V) (c : Color)
    (s : Nat) {l r : LlrbNode K V} (h1 : r.red = false)
    (h2 : (l.red && l.left.red) = false) :
    FixUp (node e c s l r) =
      node e c ((l.size + 1 + r.size) % sizeMod) l r := by
  rw [FixUp_eq_steps]
  simp only [resize]
  rw [rotateLeftStep_no (by simp [h1]),
    rotateRightStep_no (by simp only [left_node]; exact h2),
    flipStep_no (by simp [h1])]

/-- FixUp when the left child is red with a red left child of its own:
rotate right, then flip colors. -/
theorem FixUp_rotR_flip [Inhabited K] [Inhabited V] (e el : K × V)
    (c : Color) (s sl : Nat) {a b r : LlrbNode K V} (h1 : r.red = false)
    (ha : a.red = true) :
    FixUp (node e c s (node el Color.Red sl a b) r) =
      node el c.opposite ((sl + 1 + r.size) % sizeMod) (flipChild a)
        (node e Color.Black ((b.size + 1 + r.size) % sizeMod) b r) := by
  rw [FixUp_eq_steps]
  simp only [resize, size_node]
  rw [rotateLeftStep_no (by simp [h1])]
  have hstep : rotateRightStep
      (node e c ((sl + 1 + r.size) % sizeMod) (node el Color.Red sl a b) r) =
      node el c ((sl + 1 + r.size) % sizeMod) a
        (mkRep e Color.Red b r) := by
    simp [rotateRightStep, ha, RotateRight]
  rw [hstep]
  simp only [mkRep, flipStep, left_node, right_node, ha, red_node_red,
    Bool.and_self, if_true, FlipColor, size_node]
  rw [flipChild_red_node]

/-- FixUp when the right child is red and the left is not: a single left
rotation. -/
theorem FixUp_rotL [Inhabited K] [Inhabited V] (e er : K × V) (c : Color)
    (s sr : Nat) {l a b : LlrbNode K V} (hl : l.red = false)
    (ha : a.red = false) (hb : b.red = false) :
    FixUp (node e c s l (node er Color.Red sr a b)) =
      node er c ((l.size + 1 + sr) % sizeMod)
        (node e Color.Red ((l.size + 1 + a.size) % sizeMod) l a) b := by
  rw [FixUp_eq_steps]
  simp only [resize, size_node]
  have hstep : rotateLeftStep
      (node e c ((l.size + 1 + sr) % sizeMod) l (node er Color.Red sr a b)) =
      node er c ((l.size + 1 + sr) % sizeMod) (mkRep e Color.Red l a) b := by
    simp [rotateLeftStep, hl, RotateLeft]
  rw [hstep]
  rw [rotateRightStep_no (by simp [mkRep, hl])]
  rw [flipStep_no (by simp [mkRep, hb])]
  simp [mkRep]

/-- FixUp when both children are red (and no double left red): a color
flip only. -/
theorem FixUp_flip [Inhabited K] [Inhabited V] (e : K × V) (c : Color)
    (s : Nat) {l r : LlrbNode K V} (hl : l.red = true) (hr : r.red = true)
    (hll : l.left.red = false) :
    FixUp (node e c s l r) =
      node e c.opposite ((l.size + 1 + r.size) % sizeMod) (flipChild l)
        (flipChild r) := by
  rw [FixUp_eq_steps]
  simp only [resize]
  rw [rotateLeftStep_no (by simp [hl])]
  rw [rotateRightStep_no (by simp only [left_node]; simp [hll])]
  simp [flipStep, hl, hr, FlipColor]

/-- The inductive behavior of InnerInsert on a valid tree: the result obeys
the relaxed discipline (at worst a red root with a red left child), is
black-balanced with unchanged black height, is fully disciplined when the
receiver's root was black, and keeps a red root red. -/
theorem InnerInsert_rb [Inhabited K] [Inhabited V] (cmp : K → K → Bool)
    (k : K) (v : V) :
    ∀ t : LlrbNode K V, noZeroSize t = true → ok t = true →
      balanced t = true →
      okR (InnerInsert cmp k v t) = true ∧
        balanced (InnerInsert cmp k v t) = true ∧
        (InnerInsert cmp k v t).bh = t.bh ∧
        (red t = false → ok (InnerInsert cmp k v t) = true) ∧
        (red t = true → red (InnerInsert cmp k v t) = true) := by
  intro t
  induction t with
  | nil =>
    intro _ _ _
    rw [InnerInsert_nil]
    exact ⟨rfl, rfl, rfl, fun _ => rfl, fun h => by simp at h⟩
  | node e c s l r ihl ihr =>
    intro hnz hok hbal
    obtain ⟨hs, hnzl, hnzr⟩ := noZeroSize_node hnz
    obtain ⟨hokl, hokr, hrr, hcl⟩ := ok_node_iff.mp hok
    obtain ⟨hbll, hblr, hbh⟩ := balanced_node_iff.mp hbal
    by_cases h1 : cmp k e.1 = true
    · -- the key sorts before: insert into the left child, then fix up
      obtain ⟨ihA, ihB, ihC, ihD, ihE⟩ := ihl hnzl hokl hbll
      rw [InnerInsert_node_lt v l r hs h1]
      by_cases hlred : l.red = true
      · have hcblack : c = Color.Black := by
          cases c with
          | Black => rfl
          | Red => rw [hcl rfl] at hlred; cases hlred
        subst hcblack
        have hl'red : (InnerInsert cmp k v l).red = true := ihE hlred
        obtain ⟨el, sl, a, b, hl'⟩ := eq_node_of_red hl'red
        rw [hl'] at ihA ihB ihC
        rw [hl']
        obtain ⟨hoka, hokb, hbred⟩ := okR_node_iff.mp ihA
        obtain ⟨hba, hbb, hab⟩ := balanced_node_iff.mp ihB
        rw [bh_node_red] at ihC
        by_cases hared : a.red = true
        · rw [FixUp_rotR_flip e el Color.Black s sl hrr hared, opposite_Black]
          refine ⟨?_, ?_, ?_, ?_, ?_⟩
          · rw [okR_node_iff]
            refine ⟨ok_flipChild_of_red hared hoka, ?_, by simp⟩
            rw [ok_node_iff]
            exact ⟨hokb, hokr, hrr, by intro hc; cases hc⟩
          · rw [balanced_node_iff]
            refine ⟨balanced_flipChild_of_red hared hba, ?_, ?_⟩
            · rw [balanced_node_iff]
              refine ⟨hbb, hblr, ?_⟩
              omega
            · rw [bh_flipChild_of_red hared, bh_node_black]
              omega
          · rw [bh_node_red, bh_flipChild_of_red hared, bh_node_black]
            omega
          · intro _
            rw [ok_node_iff]
            refine ⟨ok_flipChild_of_red hared hoka, ?_, by simp,
              fun _ => red_flipChild_of_red hared⟩
            rw [ok_node_iff]
            exact ⟨hokb, hokr, hrr, by intro hc; cases hc⟩
          · intro h
            rw [red_node_black] at h
            cases h
        · simp only [Bool.not_eq_true] at hared
          rw [FixUp_plain e Color.Black s hrr
            (by simp only [left_node, red_node_red, Bool.true_and]; exact hared)]
          refine ⟨?_, ?_, ?_, ?_, ?_⟩
          · rw [okR_node_iff]
            refine ⟨?_, hokr, hrr⟩
            rw [ok_node_iff]
            exact ⟨hoka, hokb, hbred, fun _ => hared⟩
          · rw [balanced_node_iff]
            refine ⟨?_, hblr, ?_⟩
            · rw [balanced_node_iff]
              exact ⟨hba, hbb, hab⟩
            · rw [bh_node_red]
              omega
          · rw [bh_node_black, bh_node_red, bh_node_black]
            omega
          · intro _
            rw [ok_node_iff]
            refine ⟨?_, hokr, hrr, by intro hc; cases hc⟩
            rw [ok_node_iff]
            exact ⟨hoka, hokb, hbred, fun _ => hared⟩
          · intro h
            rw [red_node_black] at h
            cases h
      · simp only [Bool.not_eq_true] at hlred
        have hokl' : ok (InnerInsert cmp k v l) = true := ihD hlred
        rw [FixUp_plain e c s hrr (red_red_left_false_of_ok hokl')]
        refine ⟨?_, ?_, ?_, ?_, ?_⟩
        · rw [okR_node_iff]
          exact ⟨hokl', hokr, hrr⟩
        · rw [balanced_node_iff]
          exact ⟨ihB, hblr, by omega⟩
        · cases c with
          | Black =>
            rw [bh_node_black, bh_node_black]
            try omega
          | Red =>
            rw [bh_node_red, bh_node_red]
            try omega
        · intro h
          have hcb : c = Color.Black := by
            cases c with
            | Black => rfl
            | Red => rw [red_node_red] at h; cases h
          subst hcb
          rw [ok_node_iff]
          exact ⟨hokl', hokr, hrr, by intro hc; cases hc⟩
        · intro h
          exact h
    · simp only [Bool.not_eq_true] at h1
      by_cases h2 : cmp e.1 k = true
      · -- the key sorts after: insert into the right child, then fix up
        obtain ⟨jhA, jhB, jhC, jhD, jhE⟩ := ihr hnzr hokr hblr
        rw [InnerInsert_node_gt v l r hs h1 h2]
        have hokr' : ok (InnerInsert cmp k v r) = true := jhD hrr
        by_cases hr'red : (InnerInsert cmp k v r).red = true
        · obtain ⟨er, sr, a, b, hr'⟩ := eq_node_of_red hr'red
          rw [hr'] at jhB jhC hokr'
          rw [hr']
          obtain ⟨hoka, hokb, hbred, hared⟩ := ok_red_node_parts hokr'
          obtain ⟨hba, hbb, hab⟩ := balanced_node_iff.mp jhB
          rw [bh_node_red] at jhC
          by_cases hlred : l.red = true
          · have hcblack : c = Color.Black := by
              cases c with
              | Black => rfl
              | Red => rw [hcl rfl] at hlred; cases hlred
            subst hcblack
            have hll : l.left.red = false := by
              have := red_red_left_false_of_ok hokl
              rw [hlred, Bool.true_and] at this
              exact this
            rw [FixUp_flip e Color.Black s hlred (by rw [red_node_red]) hll,
              opposite_Black]
            refine ⟨?_, ?_, ?_, ?_, ?_⟩
            · rw [okR_node_iff]
              exact ⟨ok_flipChild_of_red hlred hokl,
                ok_flipChild_of_red (by rw [red_node_red]) hokr',
                red_flipChild_of_red (by rw [red_node_red])⟩
            · rw [balanced_node_iff]
              refine ⟨balanced_flipChild_of_red hlred hbll,
                balanced_flipChild_of_red (by rw [red_node_red]) jhB, ?_⟩
              rw [bh_flipChild_of_red hlred,
                bh_flipChild_of_red (by rw [red_node_red]), bh_node_red]
              omega
            · rw [bh_node_red, bh_flipChild_of_red hlred, bh_node_black]
              try omega
            · intro _
              rw [ok_node_iff]
              exact ⟨ok_flipChild_of_red hlred hokl,
                ok_flipChild_of_red (by rw [red_node_red]) hokr',
                red_flipChild_of_red (by rw [red_node_red]),
                fun _ => red_flipChild_of_red hlred⟩
            · intro h
              rw [red_node_black] at h
              cases h
          · simp only [Bool.not_eq_true] at hlred
            rw [FixUp_rotL e er c s sr hlred hared hbred]
            refine ⟨?_, ?_, ?_, ?_, ?_⟩
            · rw [okR_node_iff]
              refine ⟨?_, hokb, hbred⟩
              rw [ok_node_iff]
              exact ⟨hokl, hoka, hared, fun _ => hlred⟩
            · rw [balanced_node_iff]
              refine ⟨?_, hbb, ?_⟩
              · rw [balanced_node_iff]
                exact ⟨hbll, hba, by omega⟩
              · rw [bh_node_red]
                omega
            · cases c with
              | Black =>
                rw [bh_node_black, bh_node_red, bh_node_black]
                try omega
              | Red =>
                rw [bh_node_red, bh_node_red, bh_node_red]
                try omega
            · intro h
              have hcb : c = Color.Black := by
                cases c with
                | Black => rfl
                | Red => rw [red_node_red] at h; cases h
              subst hcb
              rw [ok_node_iff]
              refine ⟨?_, hokb, hbred, by intro hc; cases hc⟩
              rw [ok_node_iff]
              exact ⟨hokl, hoka, hared, fun _ => hlred⟩
            · intro h
              exact h
        · simp only [Bool.not_eq_true] at hr'red
          rw [FixUp_plain e c s hr'red (red_red_left_false_of_ok hokl)]
          refine ⟨?_, ?_, ?_, ?_, ?_⟩
          · rw [okR_node_iff]
            exact ⟨hokl, hokr', hr'red⟩
          · rw [balanced_node_iff]
            exact ⟨hbll, jhB, by omega⟩
          · cases c with
            | Black =>
              rw [bh_node_black, bh_node_black]
              try omega
            | Red =>
              rw [bh_node_red, bh_node_red]
              try omega
          · intro h
            have hcb : c = Color.Black := by
              cases c with
              | Black => rfl
              | Red => rw [red_node_red] at h; cases h
            subst hcb
            rw [ok_node_iff]
            exact ⟨hokl, hokr', hr'red, by intro hc; cases hc⟩
          · intro h
            exact h
      · -- equivalent keys: value update only, no fix up
        simp only [Bool.not_eq_true] at h2
        rw [InnerInsert_node_eqv v l r hs h1 h2]
        refine ⟨?_, ?_, ?_, ?_, ?_⟩
        · rw [okR_node_iff]
          exact ⟨hokl, hokr, hrr⟩
        · rw [balanced_node_iff]
          exact ⟨hbll, hblr, hbh⟩
        · cases c with
          | Black => rw [bh_node_black, bh_node_black]
          | Red => rw [bh_node_red, bh_node_red]
        · intro h
          rw [ok_node_iff]
          exact ⟨hokl, hokr, hrr, hcl⟩
        · intro h
          exact h

theorem red_paintBlack (t : LlrbNode K V) : (paintBlack t).red = false := by
  cases t <;> simp [paintBlack]

theorem ok_paintBlack {t : LlrbNode K V} (h : okR t = true) :
    ok (paintBlack t) = true := by
  cases t with
  | nil => rfl
  | node e c s l r =>
    obtain ⟨h1, h2, h3⟩ := okR_node_iff.mp h
    simp only [paintBlack]
    rw [ok_node_iff]
    exact ⟨h1, h2, h3, by intro hc; cases hc⟩

theorem balanced_paintBlack {t : LlrbNode K V} (h : balanced t = true) :
    balanced (paintBlack t) = true := by
  cases t with
  | nil => rfl
  | node e c s l r =>
    obtain ⟨h1, h2, h3⟩ := balanced_node_iff.mp h
    simp only [paintBlack]
    rw [balanced_node_iff]
    exact ⟨h1, h2, h3⟩

theorem ok_of_okR_not_red {t : LlrbNode K V} (h : okR t = true)
    (hr : red t = false) : ok t = true := by
  cases t with
  | nil => rfl
  | node e c s l r =>
    obtain ⟨h1, h2, h3⟩ := okR_node_iff.mp h
    rw [ok_node_iff]
    refine ⟨h1, h2, h3, ?_⟩
    intro hc
    subst hc
    rw [red_node_red] at hr
    cases hr

/-- The public insert on a valid tree yields a fully disciplined, balanced
tree with a black root. -/
theorem insert_rb [Inhabited K] [Inhabited V] (cmp : K → K → Bool) (k : K)
    (v : V) (t : LlrbNode K V) (hnz : noZeroSize t = true)
    (hok : ok t = true) (hbal : balanced t = true) :
    ok (insert cmp k v t) = true ∧ balanced (insert cmp k v t) = true ∧
      red (insert cmp k v t) = false := by
  obtain ⟨hA, hB, _, _, _⟩ := InnerInsert_rb cmp k v t hnz hok hbal
  simp only [insert]
  by_cases h : (InnerInsert cmp k v t).red = true
  · simp only [h, if_true]
    exact ⟨ok_paintBlack hA, balanced_paintBlack hB, red_paintBlack _⟩
  · simp only [Bool.not_eq_true] at h
    have hif : (if (InnerInsert cmp k v t).red = true
        then paintBlack (InnerInsert cmp k v t)
        else InnerInsert cmp k v t) = InnerInsert cmp k v t := by
      rw [h]
      simp
    rw [hif]
    exact ⟨ok_of_okR_not_red hA h, hB, h⟩

end LlrbNode

/-
  Preservation of the full invariant by the public insert, and hence by
  every insert sequence starting from the empty node.
-/

open LlrbNode in
theorem Inv_insert {K V : Type} [Inhabited K] [Inhabited V]
    {cmp : K → K → Bool} (hsto : IsSTO cmp) (k : K) (v : V)
    {t : LlrbNode K V} (h : Inv cmp t) :
    Inv cmp (LlrbNode.insert cmp k v t) := by
  obtain ⟨hok, hbal, hsc, hred, hcnt, hasc⟩ := h
  by_cases htop : count t = sizeMod
  · -- the stored root size has wrapped to 0: insert sees an empty node and
    -- returns a fresh black leaf
    cases t with
    | nil =>
      rw [count_nil] at htop
      rw [sizeMod_eq] at htop
      cases htop
    | node e c s l r =>
      have hs0 : s = 0 := by
        have := size_eq_count_mod hsc
        rw [htop, Nat.mod_self] at this
        simpa using this
      subst hs0
      have : LlrbNode.insert cmp k v (node e c 0 l r) =
          node (k, v) Color.Black 1 nil nil := by
        simp only [LlrbNode.insert, InnerInsert_node_zero, red_node_red,
          if_true, paintBlack]
      rw [this]
      refine ⟨rfl, rfl, ?_, rfl, ?_, ?_⟩
      · rw [sizeConsistent_node_iff]
        refine ⟨?_, rfl, rfl⟩
        rw [count_nil, sizeMod_eq]
      · rw [sizeMod_eq]
        simp only [count_node, count_nil]
        omega
      · simp only [inorder_node, inorder_nil, List.nil_append, ascending]
        exact List.pairwise_singleton _ _
  · have hlt : count t < sizeMod := Nat.lt_of_le_of_ne hcnt htop
    have hnz := noZeroSize_of_sizeConsistent t hsc hlt
    obtain ⟨hok', hbal', hred'⟩ := insert_rb cmp k v t hnz hok hbal
    refine ⟨hok', hbal', sizeConsistent_insert cmp k v t hsc, hred', ?_, ?_⟩
    · have := count_insert_le cmp k v t
      omega
    · rw [inorder_insert hsto k v t hnz hasc]
      exact ascending_linsert hsto k v _ hasc

theorem Inv_nil {K V : Type} (cmp : K → K → Bool) :
    Inv cmp (LlrbNode.nil : LlrbNode K V) :=
  ⟨rfl, rfl, rfl, rfl, Nat.zero_le _, List.Pairwise.nil⟩

theorem Inv_insertList {K V : Type} [Inhabited K] [Inhabited V]
    {cmp : K → K → Bool} (hsto : IsSTO cmp) :
    ∀ (l : List (K × V)) (t : LlrbNode K V), Inv cmp t →
      Inv cmp (LlrbNode.insertList cmp l t) := by
  intro l
  induction l with
  | nil => intro t h; exact h
  | cons a rest ih =>
    intro t h
    obtain ⟨k, v⟩ := a
    exact ih _ (Inv_insert hsto k v h)

/-- Every tree reachable from the empty node by a sequence of inserts with
a strict-total-order comparator satisfies the full invariant. -/
theorem Inv_insertSeq {K V : Type} [Inhabited K] [Inhabited V]
    {cmp : K → K → Bool} (hsto : IsSTO cmp) (l : List (K × V)) :
    Inv cmp (LlrbNode.insertSeq cmp l) :=
  Inv_insertList hsto l LlrbNode.nil (Inv_nil cmp)

/-
  From the invariant bundle to the clauses the specification states.
-/

namespace LlrbNode

theorem noRedRedRight_of_ok : ∀ t : LlrbNode K V, ok t = true →
    noRedRedRight t = true := by
  intro t
  induction t with
  | nil => intro _; rfl
  | node e c s l r ihl ihr =>
    intro h
    obtain ⟨h1, h2, h3, _⟩ := ok_node_iff.mp h
    simp only [noRedRedRight, Bool.and_eq_true, Bool.not_eq_true']
    refine ⟨⟨?_, ihl h1⟩, ihr h2⟩
    simp [h3]

theorem noRedRedLeft_of_ok : ∀ t : LlrbNode K V, ok t = true →
    noRedRedLeft t = true := by
  intro t
  induction t with
  | nil => intro _; rfl
  | node e c s l r ihl ihr =>
    intro h
    obtain ⟨h1, h2, _, h4⟩ := ok_node_iff.mp h
    simp only [noRedRedLeft, Bool.and_eq_true, Bool.not_eq_true']
    refine ⟨⟨?_, ihl h1⟩, ihr h2⟩
    cases c with
    | Black => rfl
    | Red => simp [h4 rfl]

theorem pathBlacks_const_of_balanced : ∀ t : LlrbNode K V,
    balanced t = true → ∀ m ∈ pathBlacks t, m = t.bh := by
  intro t
  induction t with
  | nil =>
    intro _ m hm
    simp only [pathBlacks, List.mem_singleton] at hm
    simpa using hm
  | node e c s l r ihl ihr =>
    intro h m hm
    obtain ⟨h1, h2, h3⟩ := balanced_node_iff.mp h
    simp only [pathBlacks, List.mem_map, List.mem_append] at hm
    obtain ⟨m', hm', rfl⟩ := hm
    have hm'bh : m' = l.bh := by
      rcases hm' with hm' | hm'
      · exact ihl h1 m' hm'
      · rw [ihr h2 m' hm', h3]
    subst hm'bh
    cases c with
    | Black => simp [bh]
    | Red => simp [bh]

theorem sizeFieldOkMod_of_sizeConsistent : ∀ t : LlrbNode K V,
    sizeConsistent t = true → sizeFieldOkMod t = true := by
  intro t
  induction t with
  | nil => intro _; rfl
  | node e c s l r ihl ihr =>
    intro h
    obtain ⟨hs, hcl, hcr⟩ := sizeConsistent_node_iff.mp h
    simp only [sizeFieldOkMod, Bool.and_eq_true, beq_iff_eq]
    refine ⟨⟨?_, ihl hcl⟩, ihr hcr⟩
    rw [hs, size_eq_count_mod hcl, size_eq_count_mod hcr, sizeMod_eq]
    omega

theorem sizeFieldOkExact_of_sizeConsistent : ∀ t : LlrbNode K V,
    sizeConsistent t = true → count t < sizeMod →
      sizeFieldOkExact t = true := by
  intro t
  induction t with
  | nil => intro _ _; rfl
  | node e c s l r ihl ihr =>
    intro h hc
    obtain ⟨hs, hcl, hcr⟩ := sizeConsistent_node_iff.mp h
    simp only [count_node] at hc
    simp only [sizeFieldOkExact, Bool.and_eq_true, beq_iff_eq]
    refine ⟨⟨?_, ihl hcl (by omega)⟩, ihr hcr (by omega)⟩
    rw [hs, size_eq_count_mod hcl, size_eq_count_mod hcr,
      Nat.mod_eq_of_lt (by omega), Nat.mod_eq_of_lt (by omega),
      Nat.mod_eq_of_lt (by omega)]
    omega

/-
  Updating an existing (comparator-equivalent) key: structure, keys,
  colors and stored sizes are untouched; only that entry's value changes.
-/

@[simp] theorem skeleton_nil : skeleton (nil : LlrbNode K V) = nil := rfl

@[simp] theorem skeleton_node (e : K × V) (c : Color) (s : Nat)
    (l r : LlrbNode K V) :
    skeleton (node e c s l r) = node (e.1, ()) c s (skeleton l) (skeleton r) :=
  rfl

theorem size_skeleton (t : LlrbNode K V) : (skeleton t).size = t.size := by
  cases t <;> rfl

theorem red_skeleton (t : LlrbNode K V) : (skeleton t).red = t.red := by
  cases t <;> rfl

theorem left_skeleton (t : LlrbNode K V) :
    (skeleton t).left = skeleton t.left := by
  cases t <;> rfl

theorem red_eq_of_skeleton_eq {a b : LlrbNode K V}
    (h : skeleton a = skeleton b) : a.red = b.red := by
  rw [← red_skeleton a, ← red_skeleton b, h]

theorem size_eq_of_skeleton_eq {a b : LlrbNode K V}
    (h : skeleton a = skeleton b) : a.size = b.size := by
  rw [← size_skeleton a, ← size_skeleton b, h]

theorem skeleton_left_eq_of_skeleton_eq {a b : LlrbNode K V}
    (h : skeleton a = skeleton b) : skeleton a.left = skeleton b.left := by
  rw [← left_skeleton a, ← left_skeleton b, h]

theorem left_red_eq_of_skeleton_eq {a b : LlrbNode K V}
    (h : skeleton a = skeleton b) : a.left.red = b.left.red :=
  red_eq_of_skeleton_eq (skeleton_left_eq_of_skeleton_eq h)

/-- InnerInsert with a key equivalent to a stored key: the skeleton (shape,
keys, colors, stored sizes) is unchanged and so are the root color and
stored root size. -/
theorem InnerInsert_eqv [Inhabited K] [Inhabited V] {cmp : K → K → Bool}
    (hsto : IsSTO cmp) (k : K) (v : V) :
    ∀ t : LlrbNode K V, noZeroSize t = true → ok t = true →
      sizeConsistent t = true → ascending cmp t.inorder →
      (∃ e ∈ t.inorder, cmp k e.1 = false ∧ cmp e.1 k = false) →
      skeleton (InnerInsert cmp k v t) = skeleton t := by
  intro t
  induction t with
  | nil =>
    intro _ _ _ _ hex
    obtain ⟨e, he, _⟩ := hex
    rw [inorder_nil] at he
    cases he
  | node e c s l r ihl ihr =>
    intro hnz hok hsc hasc hex
    obtain ⟨hs, hnzl, hnzr⟩ := noZeroSize_node hnz
    obtain ⟨hokl, hokr, hrr, hcl⟩ := ok_node_iff.mp hok
    obtain ⟨hsz, hscl, hscr⟩ := sizeConsistent_node_iff.mp hsc
    obtain ⟨hascl, hascr, hle, her⟩ := ascending_node_parts cmp hasc
    have hsize : (l.size + 1 + r.size) % sizeMod = s := by
      rw [size_eq_count_mod hscl, size_eq_count_mod hscr, sizeMod_add_helper,
        hsz]
    by_cases h1 : cmp k e.1 = true
    · -- the equivalent key lies in the left subtree
      have hexl : ∃ e' ∈ l.inorder, cmp k e'.1 = false ∧ cmp e'.1 k = false := by
        obtain ⟨e', he', heq1, heq2⟩ := hex
        rw [inorder_node, List.mem_append, List.mem_cons] at he'
        rcases he' with he' | he' | he'
        · exact ⟨e', he', heq1, heq2⟩
        · subst he'
          rw [h1] at heq1
          cases heq1
        · exfalso
          have := hsto.lt_trans k e.1 e'.1 h1 (her e' he')
          rw [this] at heq1
          cases heq1
      have hskel := ihl hnzl hokl hscl hascl hexl
      rw [InnerInsert_node_lt v l r hs h1]
      have hred : (InnerInsert cmp k v l).red = l.red :=
        red_eq_of_skeleton_eq hskel
      have hguard : ((InnerInsert cmp k v l).red &&
          (InnerInsert cmp k v l).left.red) = false := by
        rw [hred, left_red_eq_of_skeleton_eq hskel]
        exact red_red_left_false_of_ok hokl
      rw [FixUp_plain e c s hrr hguard, skeleton_node, skeleton_node,
        size_eq_of_skeleton_eq hskel, hsize, hskel]
    · simp only [Bool.not_eq_true] at h1
      by_cases h2 : cmp e.1 k = true
      · -- the equivalent key lies in the right subtree
        have hexr : ∃ e' ∈ r.inorder,
            cmp k e'.1 = false ∧ cmp e'.1 k = false := by
          obtain ⟨e', he', heq1, heq2⟩ := hex
          rw [inorder_node, List.mem_append, List.mem_cons] at he'
          rcases he' with he' | he' | he'
          · exfalso
            have := hsto.lt_trans e'.1 e.1 k (hle e' he') h2
            rw [this] at heq2
            cases heq2
          · subst he'
            rw [h2] at heq2
            cases heq2
          · exact ⟨e', he', heq1, heq2⟩
        have hskel := ihr hnzr hokr hscr hascr hexr
        rw [InnerInsert_node_gt v l r hs h1 h2]
        have hguard : (l.red && l.left.red) = false :=
          red_red_left_false_of_ok hokl
        have hrr' : (InnerInsert cmp k v r).red = false := by
          rw [red_eq_of_skeleton_eq hskel]
          exact hrr
        rw [FixUp_plain e c s hrr' hguard, skeleton_node, skeleton_node,
          size_eq_of_skeleton_eq hskel, hsize, hskel]
      · simp only [Bool.not_eq_true] at h2
        rw [InnerInsert_node_eqv v l r hs h1 h2, skeleton_node,
          skeleton_node]

/-- The list-level effect of inserting a key equivalent to a stored key:
exactly the equivalent entries have their value replaced, keeping their
stored keys; every other entry is untouched. -/
theorem linsert_eq_map_of_eqv {K' V' : Type} {cmp : K' → K' → Bool}
    (hsto : IsSTO cmp) (k : K') (v : V') :
    ∀ l : List (K' × V'), ascending cmp l →
      (∃ e ∈ l, cmp k e.1 = false ∧ cmp e.1 k = false) →
      linsert cmp k v l =
        l.map (fun a => if cmp k a.1 || cmp a.1 k then a else (a.1, v)) := by
  intro l
  induction l with
  | nil =>
    intro _ hex
    obtain ⟨e, he, _⟩ := hex
    cases he
  | cons a l ih =>
    intro hasc hex
    rcases List.pairwise_cons.mp hasc with ⟨ha, hl⟩
    by_cases ha1 : cmp k a.1 = false ∧ cmp a.1 k = false
    · obtain ⟨hka, hak⟩ := ha1
      rw [linsert_cons_eqv cmp k v a l hka hak, List.map_cons]
      have hmap : l.map
          (fun b => if cmp k b.1 || cmp b.1 k then b else (b.1, v)) = l := by
        have : ∀ b ∈ l, (if cmp k b.1 || cmp b.1 k then b else (b.1, v)) = b := by
          intro b hb
          have := hsto.gt_of_eqv_of_lt (ha b hb) hka hak
          simp [this.1]
        calc l.map (fun b => if cmp k b.1 || cmp b.1 k then b else (b.1, v))
            = l.map id := List.map_congr_left this
          _ = l := List.map_id l
      rw [hmap]
      simp [hka, hak]
    · have hor : cmp k a.1 = true ∨ cmp a.1 k = true := by
        rcases Bool.eq_false_or_eq_true (cmp k a.1) with h | h
        · exact Or.inl h
        · rcases Bool.eq_false_or_eq_true (cmp a.1 k) with h' | h'
          · exact Or.inr h'
          · exact absurd ⟨h, h'⟩ ha1
      have hexl : ∃ e ∈ l, cmp k e.1 = false ∧ cmp e.1 k = false := by
        obtain ⟨e', he', heq1, heq2⟩ := hex
        rcases List.mem_cons.mp he' with heq | he'
        · exfalso
          subst heq
          exact ha1 ⟨heq1, heq2⟩
        · exact ⟨e', he', heq1, heq2⟩
      have hka : cmp k a.1 = false := by
        rcases hor with h | h
        · exfalso
          obtain ⟨e', he', heq1, heq2⟩ := hexl
          have := hsto.lt_trans k a.1 e'.1 h (ha e' he')
          rw [this] at heq1
          cases heq1
        · exact hsto.asymm a.1 k h
      have hak : cmp a.1 k = true := by
        rcases hor with h | h
        · rw [h] at hka; cases hka
        · exact h
      rw [linsert_cons_lt cmp k v a l hka hak, List.map_cons, ih hl hexl]
      simp [hak]

end LlrbNode

/-
  Sequential insertion of 0, 1, 2, ... with the natural order: the concrete
  family used to exercise the 31-bit size field.
-/

theorem natLt_sto : IsSTO natLt := by
  constructor
  · intro a
    simp [natLt]
  · intro a b c hab hbc
    simp only [natLt, decide_eq_true_eq] at hab hbc ⊢
    omega
  · intro a b hne
    simp only [natLt, decide_eq_true_eq]
    omega

theorem rangePairs_succ (n : Nat) :
    rangePairs (n + 1) = rangePairs n ++ [(n, 0)] := by
  simp [rangePairs, List.range_succ]

theorem mem_rangePairs {n : Nat} {a : Nat × Nat} (h : a ∈ rangePairs n) :
    a.1 < n := by
  simp only [rangePairs, List.mem_map, List.mem_range] at h
  obtain ⟨i, hi, rfl⟩ := h
  exact hi

theorem insertList_append {K V : Type} [Inhabited K] [Inhabited V]
    (cmp : K → K → Bool) :
    ∀ (l1 l2 : List (K × V)) (t : LlrbNode K V),
      LlrbNode.insertList cmp (l1 ++ l2) t =
        LlrbNode.insertList cmp l2 (LlrbNode.insertList cmp l1 t) := by
  intro l1
  induction l1 with
  | nil => intro l2 t; rfl
  | cons a l1 ih =>
    intro l2 t
    obtain ⟨k, v⟩ := a
    simp only [List.cons_append, LlrbNode.insertList]
    exact ih l2 (LlrbNode.insert cmp k v t)

theorem linsert_at_end {K V : Type} (cmp : K → K → Bool) (k : K) (v : V) :
    ∀ l : List (K × V), (∀ a ∈ l, cmp a.1 k = true ∧ cmp k a.1 = false) →
      linsert cmp k v l = l ++ [(k, v)] := by
  intro l
  induction l with
  | nil => intro _; rfl
  | cons a l ih =>
    intro h
    obtain ⟨hak, hka⟩ := h a (List.mem_cons_self a l)
    rw [linsert_cons_lt cmp k v a l hka hak,
      ih (fun b hb => h b (List.mem_cons_of_mem a hb)), List.cons_append]

/-- Inserting 0, 1, ..., n-1 in order yields exactly that in-order entry
sequence, for any n up to 2 ^ 31. -/
theorem inorder_insertSeq_range :
    ∀ n : Nat, n ≤ sizeMod →
      LlrbNode.inorder (LlrbNode.insertSeq natLt (rangePairs n)) =
        rangePairs n := by
  intro n
  induction n with
  | zero => intro _; rfl
  | succ n ih =>
    intro hn
    have hn' : n ≤ sizeMod := by omega
    have hIH := ih hn'
    have hInv := Inv_insertSeq natLt_sto (K := Nat) (V := Nat) (rangePairs n)
    obtain ⟨hok, hbal, hsc, hred, hcnt, hasc⟩ := hInv
    have hcount : LlrbNode.count (LlrbNode.insertSeq natLt (rangePairs n)) =
        n := by
      rw [LlrbNode.count_eq_length_inorder, hIH]
      simp [rangePairs]
    have hcountlt : LlrbNode.count (LlrbNode.insertSeq natLt (rangePairs n))
        < sizeMod := by
      rw [hcount]
      omega
    have hnz := LlrbNode.noZeroSize_of_sizeConsistent _ hsc hcountlt
    have hstep : LlrbNode.insertSeq natLt (rangePairs (n + 1)) =
        LlrbNode.insert natLt n 0 (LlrbNode.insertSeq natLt (rangePairs n)) := by
      rw [LlrbNode.insertSeq, rangePairs_succ, insertList_append]
      rfl
    rw [hstep, LlrbNode.inorder_insert natLt_sto n 0 _ hnz hasc, hIH,
      linsert_at_end natLt n 0 (rangePairs n) ?_, rangePairs_succ]
    intro a ha
    have := mem_rangePairs ha
    constructor
    · simp only [natLt, decide_eq_true_eq]
      omega
    · simp only [natLt, decide_eq_false_iff_not]
      omega

/-
  The frame property of the store-passing embedding: an insert call only
  writes to cells it allocated itself.
-/

namespace Heap

variable {K V : Type} [Inhabited K] [Inhabited V]

theorem getCell_putCell_ne (s : StoreH K V) (a i : Nat) (rep : RepH K V)
    (h : i ≠ a) : getCell (putCell s a rep) i = getCell s i := by
  simp only [getCell, putCell, List.getD_eq_getElem?_getD]
  rw [List.getElem?_set_ne (Ne.symm h)]

theorem length_putCell (s : StoreH K V) (a : Nat) (rep : RepH K V) :
    (putCell s a rep).length = s.length :=
  List.length_set s a rep

theorem getCell_append (s tail : StoreH K V) (i : Nat) (h : i < s.length) :
    getCell (s ++ tail) i = getCell s i := by
  simp only [getCell]
  exact List.getD_append s tail emptyRepH i h

theorem FrameGe.refl (n : Nat) (s : StoreH K V) : FrameGe n s s :=
  ⟨Nat.le_refl _, fun _ _ => rfl⟩

theorem FrameGe.trans {n : Nat} {s1 s2 s3 : StoreH K V}
    (h12 : FrameGe n s1 s2) (h23 : FrameGe n s2 s3) : FrameGe n s1 s3 :=
  ⟨Nat.le_trans h12.1 h23.1,
    fun i hi => (h23.2 i hi).trans (h12.2 i hi)⟩

theorem FrameGe.mono {n n' : Nat} {s s' : StoreH K V}
    (h : FrameGe n s s') (hn : n' ≤ n) : FrameGe n' s s' :=
  ⟨h.1, fun i hi => h.2 i (Nat.lt_of_lt_of_le hi hn)⟩

theorem FrameGe.le {n : Nat} {s s' : StoreH K V} (h : FrameGe n s s')
    (hn : n ≤ s.length) : n ≤ s'.length :=
  Nat.le_trans hn h.1

theorem frame_putCell (s : StoreH K V) (a n : Nat) (rep : RepH K V)
    (hn : n ≤ a) : FrameGe n s (putCell s a rep) :=
  ⟨Nat.le_of_eq (length_putCell s a rep).symm,
    fun i hi => getCell_putCell_ne s a i rep (by omega)⟩

theorem frame_alloc (s : StoreH K V) (rep : RepH K V) (n : Nat)
    (hn : n ≤ s.length) : FrameGe n s (s ++ [rep]) :=
  ⟨by simp, fun i hi => getCell_append s [rep] i (by omega)⟩

theorem frame_setSizeH (s : StoreH K V) (a n : Nat) (m : Nat)
    (ha : n ≤ a) : FrameGe n s (setSizeH s a m) :=
  frame_putCell s a n _ ha

theorem frame_setLeftH (s : StoreH K V) (a n la : Nat) (ha : n ≤ a) :
    FrameGe n s (setLeftH s a la) :=
  frame_putCell s a n _ ha

theorem frame_setRightH (s : StoreH K V) (a n ra : Nat) (ha : n ≤ a) :
    FrameGe n s (setRightH s a ra) :=
  frame_putCell s a n _ ha

theorem frame_setValueH (s : StoreH K V) (a n : Nat) (v : V) (ha : n ≤ a) :
    FrameGe n s (setValueH s a v) :=
  frame_putCell s a n _ ha

theorem frame_setColorH (s : StoreH K V) (a n : Nat) (c : Color)
    (ha : n ≤ a) : FrameGe n s (setColorH s a c) :=
  frame_putCell s a n _ ha

theorem frame_alloc_put (s : StoreH K V) (r1 rep : RepH K V) (a n : Nat)
    (ha : n ≤ a) (hs : n ≤ s.length) :
    FrameGe n s (putCell (s ++ [r1]) a rep) :=
  (frame_alloc s r1 n hs).trans (frame_putCell _ a n rep ha)

theorem frame_alloc2_put (s : StoreH K V) (r1 r2 rep : RepH K V)
    (a n : Nat) (ha : n ≤ a) (hs : n ≤ s.length) :
    FrameGe n s (putCell (s ++ [r1] ++ [r2]) a rep) := by
  have h1 := frame_alloc s r1 n hs
  have h2 := frame_alloc (s ++ [r1]) r2 n (h1.le hs)
  exact (h1.trans h2).trans (frame_putCell _ a n rep ha)

theorem frame_rotateLeftH (s : StoreH K V) (a n : Nat) (ha : n ≤ a)
    (hs : n ≤ s.length) : FrameGe n s (rotateLeftH s a) := by
  simp only [rotateLeftH, allocRep4, allocCell]
  exact frame_alloc_put s _ _ a n ha hs

theorem frame_rotateRightH (s : StoreH K V) (a n : Nat) (ha : n ≤ a)
    (hs : n ≤ s.length) : FrameGe n s (rotateRightH s a) := by
  simp only [rotateRightH, allocRep4, allocCell]
  exact frame_alloc_put s _ _ a n ha hs

theorem frame_flipColorH (s : StoreH K V) (a n : Nat) (ha : n ≤ a)
    (hs : n ≤ s.length) : FrameGe n s (flipColorH s a) := by
  simp only [flipColorH, allocCell]
  exact frame_alloc2_put s _ _ _ a n ha hs

theorem frame_cond (s s' : StoreH K V) (n : Nat) (b : Bool)
    (f : StoreH K V → StoreH K V) (hbase : FrameGe n s s')
    (hlen : n ≤ s.length)
    (hf : ∀ u : StoreH K V, n ≤ u.length → FrameGe n u (f u)) :
    FrameGe n s (if b then f s' else s') := by
  cases b with
  | false => exact hbase
  | true => exact hbase.trans (hf s' (hbase.le hlen))

theorem frame_fixUpH (s : StoreH K V) (a n : Nat) (ha : n ≤ a)
    (hs : n ≤ s.length) : FrameGe n s (fixUpH s a) := by
  simp only [fixUpH]
  refine frame_cond s _ n _ (fun u => flipColorH u a) ?_ hs
    (fun u hu => frame_flipColorH u a n ha hu)
  refine frame_cond s _ n _ (fun u => rotateRightH u a) ?_ hs
    (fun u hu => frame_rotateRightH u a n ha hu)
  refine frame_cond s _ n _ (fun u => rotateLeftH u a) ?_ hs
    (fun u hu => frame_rotateLeftH u a n ha hu)
  exact frame_setSizeH s a n _ ha

theorem length_setLeftH (s : StoreH K V) (a la : Nat) :
    (setLeftH s a la).length = s.length :=
  length_putCell _ _ _

theorem length_setRightH (s : StoreH K V) (a ra : Nat) :
    (setRightH s a ra).length = s.length :=
  length_putCell _ _ _

/-- The recursive insert never writes to a cell that existed before the
call: all preexisting cells are unchanged, the store only grows, and the
returned address (when the fuel sufficed) is one of the fresh cells. -/
theorem frame_innerInsertH (cmp : K → K → Bool) (k : K) (v : V) :
    ∀ (fuel : Nat) (s : StoreH K V) (a : Nat),
      FrameGe s.length s (innerInsertH cmp k v fuel s a).1 ∧
        (∀ rt, (innerInsertH cmp k v fuel s a).2 = some rt →
          s.length ≤ rt ∧ rt < (innerInsertH cmp k v fuel s a).1.length) := by
  intro fuel
  induction fuel with
  | zero =>
    intro s a
    exact ⟨FrameGe.refl _ _, fun rt h => by cases h⟩
  | succ fuel ih =>
    intro s a
    by_cases hz : ((getCell s a).size == 0) = true
    · simp only [innerInsertH, hz, if_true, allocRep4, allocCell]
      refine ⟨frame_alloc s _ s.length (Nat.le_refl _), ?_⟩
      intro rt h
      simp only [Option.some.injEq] at h
      subst h
      simp
    · simp only [Bool.not_eq_true] at hz
      simp only [innerInsertH, hz, Bool.false_eq_true, if_false, cloneH,
        allocCell]
      by_cases h1 : cmp k (getCell s a).entry.1 = true
      · simp only [h1, if_true]
        obtain ⟨hfr, hrt⟩ := ih (s ++ [getCell s a]) (getCell s a).left
        rcases hrec : innerInsertH cmp k v fuel (s ++ [getCell s a])
          (getCell s a).left with ⟨s2, o⟩
        rw [hrec] at hfr hrt
        have h0 : FrameGe s.length s (s ++ [getCell s a]) :=
          frame_alloc s _ s.length (Nat.le_refl _)
        have h0' : FrameGe s.length (s ++ [getCell s a]) s2 :=
          FrameGe.mono hfr (by simp)
        have hlen2 : s.length + 1 ≤ s2.length := by
          have := hfr.1
          simpa using this
        cases o with
        | some la =>
          simp only
          have h1' : FrameGe s.length s2 (setLeftH s2 s.length la) :=
            frame_setLeftH s2 s.length s.length la (Nat.le_refl _)
          have h2' : FrameGe s.length (setLeftH s2 s.length la)
              (fixUpH (setLeftH s2 s.length la) s.length) :=
            frame_fixUpH _ s.length s.length (Nat.le_refl _)
              (by rw [length_setLeftH]; omega)
          refine ⟨((h0.trans h0').trans h1').trans h2', ?_⟩
          intro rt h
          simp only [Option.some.injEq] at h
          subst h
          refine ⟨Nat.le_refl _, ?_⟩
          have := h2'.1
          rw [length_setLeftH] at this
          omega
        | none =>
          simp only
          exact ⟨h0.trans h0', fun rt h => by cases h⟩
      · simp only [h1, Bool.false_eq_true, if_false]
        by_cases h2 : cmp (getCell s a).entry.1 k = true
        · simp only [h2, if_true]
          obtain ⟨hfr, hrt⟩ := ih (s ++ [getCell s a]) (getCell s a).right
          rcases hrec : innerInsertH cmp k v fuel (s ++ [getCell s a])
            (getCell s a).right with ⟨s2, o⟩
          rw [hrec] at hfr hrt
          have h0 : FrameGe s.length s (s ++ [getCell s a]) :=
            frame_alloc s _ s.length (Nat.le_refl _)
          have h0' : FrameGe s.length (s ++ [getCell s a]) s2 :=
            FrameGe.mono hfr (by simp)
          have hlen2 : s.length + 1 ≤ s2.length := by
            have := hfr.1
            simpa using this
          cases o with
          | some ra =>
            simp only
            have h1' : FrameGe s.length s2 (setRightH s2 s.length ra) :=
              frame_setRightH s2 s.length s.length ra (Nat.le_refl _)
            have h2' : FrameGe s.length (setRightH s2 s.length ra)
                (fixUpH (setRightH s2 s.length ra) s.length) :=
              frame_fixUpH _ s.length s.length (Nat.le_refl _)
                (by rw [length_setRightH]; omega)
            refine ⟨((h0.trans h0').trans h1').trans h2', ?_⟩
            intro rt h
            simp only [Option.some.injEq] at h
            subst h
            refine ⟨Nat.le_refl _, ?_⟩
            have := h2'.1
            rw [length_setRightH] at this
            omega
          | none =>
            simp only
            exact ⟨h0.trans h0', fun rt h => by cases h⟩
        · simp only [h2, Bool.false_eq_true, if_false]
          refine ⟨?_, ?_⟩
          · exact (frame_alloc s _ s.length (Nat.le_refl _)).trans
              (frame_setValueH _ s.length s.length v (Nat.le_refl _))
          · intro rt h
            simp only [Option.some.injEq] at h
            subst h
            refine ⟨Nat.le_refl _, ?_⟩
            rw [setValueH, length_putCell]
            simp

/-- The public insert also never writes to a preexisting cell: the final
recoloring only ever touches the fresh root returned by the recursion. -/
theorem frame_insertH (cmp : K → K → Bool) (k : K) (v : V) (fuel : Nat)
    (s : StoreH K V) (a : Nat) :
    FrameGe s.length s (insertH cmp k v fuel s a).1 := by
  obtain ⟨hfr, hrt⟩ := frame_innerInsertH cmp k v fuel s a
  simp only [insertH]
  rcases hrec : innerInsertH cmp k v fuel s a with ⟨s1, o⟩
  rw [hrec] at hfr hrt
  cases o with
  | none => exact hfr
  | some rt =>
    simp only
    by_cases hred : redH s1 rt = true
    · simp only [hred, if_true]
      exact hfr.trans
        (frame_setColorH s1 rt s.length Color.Black (hrt rt rfl).1)
    · simp only [hred, Bool.false_eq_true, if_false]
      exact hfr

theorem closed_child_lt {s : StoreH K V} (h : ClosedH s) {b : Nat}
    (hb : b < s.length) :
    (getCell s b).left < s.length ∧ (getCell s b).right < s.length := by
  have hmem : getCell s b ∈ s := by
    rw [getCell, List.getD_eq_getElem s emptyRepH hb]
    exact List.getElem_mem hb
  exact h _ hmem

/-- Reading a tree out of the store only depends on the cells below the
original allocation mark, so any store extension that preserves them reads
back the identical tree. -/
theorem readTreeH_congr {s s' : StoreH K V}
    (hcells : ∀ i, i < s.length → getCell s' i = getCell s i)
    (hwf : ClosedH s) :
    ∀ (fuel : Nat) (b : Nat), b < s.length →
      readTreeH fuel s' b = readTreeH fuel s b := by
  intro fuel
  induction fuel with
  | zero => intro b _; rfl
  | succ fuel ih =>
    intro b hb
    obtain ⟨hbl, hbr⟩ := closed_child_lt hwf hb
    simp only [readTreeH]
    rw [hcells b hb, ih (getCell s b).left hbl, ih (getCell s b).right hbr]

theorem leftDescH_store0 {K V : Type} [Inhabited K] [Inhabited V] :
    ∀ n : Nat, leftDescH (store0 : StoreH K V) n 0 = 0 := by
  intro n
  induction n with
  | zero => rfl
  | succ n ih =>
    show leftDescH (store0 : StoreH K V) n (leftH store0 0) = 0
    have h0 : leftH (store0 : StoreH K V) 0 = 0 := rfl
    rw [h0]
    exact ih

end Heap

/-
  Remaining helper facts feeding the claim-level theorems.
-/

theorem keys_nodup_of_ascending {K V : Type} {cmp : K → K → Bool}
    (hsto : IsSTO cmp) {l : List (K × V)} (h : ascending cmp l) :
    (l.map Prod.fst).Nodup := by
  rw [List.Nodup, List.pairwise_map]
  refine h.imp ?_
  intro a b hab heq
  rw [heq, hsto.irrefl b.1] at hab
  cases hab

theorem red_insert_eq_false {K V : Type} [Inhabited K] [Inhabited V]
    (cmp : K → K → Bool) (k : K) (v : V) (t : LlrbNode K V) :
    (LlrbNode.insert cmp k v t).red = false := by
  simp only [LlrbNode.insert]
  by_cases h : (LlrbNode.InnerInsert cmp k v t).red = true
  · simp only [h, if_true]
    exact LlrbNode.red_paintBlack _
  · simp only [Bool.not_eq_true] at h
    simp only [h, Bool.false_eq_true, if_false]

theorem count_lt_of_inv_exact {K V : Type} {cmp : K → K → Bool}
    {t : LlrbNode K V} (hinv : Inv cmp t)
    (hexact : LlrbNode.sizeFieldOkExact t = true) :
    LlrbNode.count t < sizeMod := by
  obtain ⟨_, _, hsc, _, hcnt, _⟩ := hinv
  rcases Nat.lt_or_ge (LlrbNode.count t) sizeMod with h | h
  · exact h
  · exfalso
    have heq : LlrbNode.count t = sizeMod := by omega
    cases t with
    | nil =>
      rw [LlrbNode.count_nil] at heq
      rw [LlrbNode.sizeMod_eq] at heq
      cases heq
    | node e c s l r =>
      obtain ⟨hs, hscl, hscr⟩ := LlrbNode.sizeConsistent_node_iff.mp hsc
      simp only [LlrbNode.sizeFieldOkExact, Bool.and_eq_true,
        beq_iff_eq] at hexact
      obtain ⟨⟨hex, _⟩, _⟩ := hexact
      rw [LlrbNode.count_node] at heq
      rw [heq, Nat.mod_self] at hs
      rw [hs] at hex
      omega

/-
  Claim-level theorems.
-/

open LlrbNode Heap

/-- Claim C1 (amended): after every sequence of inserts from the empty node
with a strict-total-order comparator, the resulting tree has a Black root,
no Red node with a Red right child, no two consecutive Red nodes on a
left-descending chain, the same Black-node count on every root-to-empty
path, and at every node a stored size equal to 1 + left.size + right.size
reduced modulo 2 ^ 31 (the 31-bit size bitfield wraps, so the equality
holds exactly only while the subtree stays below 2 ^ 31 entries). -/
theorem claim_c1_invariants {K V : Type} [Inhabited K] [Inhabited V]
    {cmp : K → K → Bool} (hsto : IsSTO cmp) (l : List (K × V)) :
    color (insertSeq cmp l) = Color.Black ∧
      noRedRedRight (insertSeq cmp l) = true ∧
      noRedRedLeft (insertSeq cmp l) = true ∧
      (∃ n, ∀ m ∈ pathBlacks (insertSeq cmp l), m = n) ∧
      sizeFieldOkMod (insertSeq cmp l) = true := by
  obtain ⟨hok, hbal, hsc, hred, _, _⟩ := Inv_insertSeq hsto l
  refine ⟨color_eq_black_of_not_red hred, noRedRedRight_of_ok _ hok,
    noRedRedLeft_of_ok _ hok, ⟨(insertSeq cmp l).bh, ?_⟩,
    sizeFieldOkMod_of_sizeConsistent _ hsc⟩
  exact pathBlacks_const_of_balanced _ hbal

/-- Witness for claim C1 at a concrete comparator and insert sequence. -/
theorem claim_c1_invariants_witness :
    IsSTO natLt ∧
      (color (insertSeq natLt [(5, 1), (3, 2), (8, 3), (1, 4)]) =
          Color.Black ∧
        noRedRedRight (insertSeq natLt [(5, 1), (3, 2), (8, 3), (1, 4)]) =
          true ∧
        noRedRedLeft (insertSeq natLt [(5, 1), (3, 2), (8, 3), (1, 4)]) =
          true ∧
        (∃ n, ∀ m ∈ pathBlacks (insertSeq natLt
          [(5, 1), (3, 2), (8, 3), (1, 4)]), m = n) ∧
        sizeFieldOkMod (insertSeq natLt [(5, 1), (3, 2), (8, 3), (1, 4)]) =
          true) :=
  ⟨natLt_sto, claim_c1_invariants natLt_sto [(5, 1), (3, 2), (8, 3), (1, 4)]⟩

/-- Counterexample to claim C1 as stated: with the natural order on Nat,
after inserting the keys 0, 1, ..., 2 ^ 31 - 1 the root's stored size field
has wrapped to 0, so the literal clause that every stored size equals
1 + left.size + right.size fails at the root. -/
theorem claim_c1_invariants_cex :
    IsSTO natLt ∧
      sizeFieldOkExact (insertSeq natLt (rangePairs sizeMod)) = false := by
  refine ⟨natLt_sto, ?_⟩
  have hio := inorder_insertSeq_range sizeMod (Nat.le_refl _)
  have hcount : count (insertSeq natLt (rangePairs sizeMod)) = sizeMod := by
    rw [count_eq_length_inorder, hio]
    simp [rangePairs]
  obtain ⟨_, _, hsc, _, _, _⟩ :=
    Inv_insertSeq natLt_sto (K := Nat) (V := Nat) (rangePairs sizeMod)
  rcases hT : insertSeq natLt (rangePairs sizeMod) with _ | ⟨e, c, s, l, r⟩
  · rw [hT, count_nil] at hcount
    rw [sizeMod_eq] at hcount
    cases hcount
  · rw [hT] at hsc hcount
    obtain ⟨hs, hscl, hscr⟩ := sizeConsistent_node_iff.mp hsc
    rw [count_node] at hcount
    have hs0 : s = 0 := by
      rw [hs, hcount, Nat.mod_self]
    have hsl : size l = count l := by
      rw [size_eq_count_mod hscl, Nat.mod_eq_of_lt]
      omega
    have hsr : size r = count r := by
      rw [size_eq_count_mod hscr, Nat.mod_eq_of_lt]
      omega
    have hroot : (s == 1 + size l + size r) = false := by
      rw [beq_eq_false_iff_ne]
      rw [hs0, hsl, hsr]
      omega
    simp only [sizeFieldOkExact, hroot, Bool.false_and]

/-- Claim C2: for every tree built by a sequence of inserts with a
strict-total-order comparator, the in-order traversal lists the entries in
strictly ascending key order, with no duplicate keys. -/
theorem claim_c2_inorder_sorted {K V : Type} [Inhabited K] [Inhabited V]
    {cmp : K → K → Bool} (hsto : IsSTO cmp) (l : List (K × V)) :
    List.Pairwise (fun a b => cmp a.1 b.1 = true)
        (inorder (insertSeq cmp l)) ∧
      ((inorder (insertSeq cmp l)).map Prod.fst).Nodup := by
  obtain ⟨_, _, _, _, _, hasc⟩ := Inv_insertSeq hsto l
  exact ⟨hasc, keys_nodup_of_ascending hsto hasc⟩

/-- Witness for claim C2 at a concrete comparator and insert sequence. -/
theorem claim_c2_inorder_sorted_witness :
    IsSTO natLt ∧
      (List.Pairwise (fun a b => natLt a.1 b.1 = true)
          (inorder (insertSeq natLt [(5, 1), (3, 2), (8, 3), (4, 4)])) ∧
        ((inorder (insertSeq natLt
          [(5, 1), (3, 2), (8, 3), (4, 4)])).map Prod.fst).Nodup) :=
  ⟨natLt_sto, claim_c2_inorder_sorted natLt_sto [(5, 1), (3, 2), (8, 3), (4, 4)]⟩

/-- Claim C5: InnerInsert on the empty node builds a fresh Red leaf of size
1 holding the entry with both children empty; the public insert recolors a
Red root Black and only then returns it, so its result never has a Red
root. -/
theorem claim_c5_fresh_leaf_black_root {K V : Type} [Inhabited K]
    [Inhabited V] (cmp : K → K → Bool) (k : K) (v : V) :
    InnerInsert cmp k v (nil : LlrbNode K V) =
        node (k, v) Color.Red 1 nil nil ∧
      (∀ t : LlrbNode K V, insert cmp k v t =
        (if (InnerInsert cmp k v t).red = true
          then paintBlack (InnerInsert cmp k v t)
          else InnerInsert cmp k v t)) ∧
      (∀ t : LlrbNode K V, (insert cmp k v t).red = false) := by
  refine ⟨InnerInsert_nil cmp k v, fun t => rfl, fun t => ?_⟩
  exact red_insert_eq_false cmp k v t

/-- Claim C7: the two rotations produce exactly the structure the
specification describes, keep the top node's color and stored size, and
preserve both the in-order entry sequence and the entry count of the
subtree. -/
theorem claim_c7_rotations {K V : Type} [Inhabited K] [Inhabited V]
    (e er el : K × V) (c cr cl : Color) (s sr sl : Nat)
    (l rl rr ll lr r : LlrbNode K V) :
    RotateLeft (node e c s l (node er cr sr rl rr)) =
        node er c s
          (node e Color.Red ((l.size + 1 + rl.size) % sizeMod) l rl) rr ∧
      RotateRight (node e c s (node el cl sl ll lr) r) =
        node el c s ll
          (node e Color.Red ((lr.size + 1 + r.size) % sizeMod) lr r) ∧
      inorder (RotateLeft (node e c s l (node er cr sr rl rr))) =
        inorder (node e c s l (node er cr sr rl rr)) ∧
      inorder (RotateRight (node e c s (node el cl sl ll lr) r)) =
        inorder (node e c s (node el cl sl ll lr) r) ∧
      size (RotateLeft (node e c s l (node er cr sr rl rr))) = s ∧
      size (RotateRight (node e c s (node el cl sl ll lr) r)) = s ∧
      count (RotateLeft (node e c s l (node er cr sr rl rr))) =
        count (node e c s l (node er cr sr rl rr)) ∧
      count (RotateRight (node e c s (node el cl sl ll lr) r)) =
        count (node e c s (node el cl sl ll lr) r) := by
  refine ⟨by simp [RotateLeft, mkRep], by simp [RotateRight, mkRep],
    inorder_RotateLeft_node e c s l er cr sr rl rr,
    inorder_RotateRight_node e c s el cl sl ll lr r, by simp [RotateLeft],
    by simp [RotateRight], ?_, ?_⟩
  · rw [count_eq_length_inorder, count_eq_length_inorder,
      inorder_RotateLeft_node e c s l er cr sr rl rr]
  · rw [count_eq_length_inorder, count_eq_length_inorder,
      inorder_RotateRight_node e c s el cl sl ll lr r]

/-- Claim C10: on every tree built by inserts, each node's stored size
field holds the subtree entry count reduced modulo 2 ^ 31; a stored size
equals the true count exactly when the count is below 2 ^ 31. -/
theorem claim_c10_size_bitfield {K V : Type} [Inhabited K] [Inhabited V]
    {cmp : K → K → Bool} (hsto : IsSTO cmp) (l : List (K × V)) :
    sizeConsistent (insertSeq cmp l) = true ∧
      (∀ u : LlrbNode K V, sizeConsistent u = true →
        u.size = u.count % sizeMod ∧ (u.size = u.count ↔ u.count < sizeMod)) := by
  obtain ⟨_, _, hsc, _, _, _⟩ := Inv_insertSeq hsto l
  refine ⟨hsc, fun u hu => ⟨size_eq_count_mod hu, ?_, ?_⟩⟩
  · intro heq
    rcases Nat.lt_or_ge u.count sizeMod with h | h
    · exact h
    · exfalso
      rw [size_eq_count_mod hu] at heq
      have : u.count % sizeMod < sizeMod := by
        rw [sizeMod_eq]
        omega
      omega
  · intro h
    rw [size_eq_count_mod hu, Nat.mod_eq_of_lt h]

/-- Witness for claim C10 at a concrete comparator and insert sequence. -/
theorem claim_c10_size_bitfield_witness :
    IsSTO natLt ∧
      (sizeConsistent (insertSeq natLt [(5, 1), (3, 2)]) = true ∧
        (∀ u : LlrbNode Nat Nat, sizeConsistent u = true →
          u.size = u.count % sizeMod ∧
            (u.size = u.count ↔ u.count < sizeMod))) :=
  ⟨natLt_sto, claim_c10_size_bitfield natLt_sto [(5, 1), (3, 2)]⟩

/-- Claim C4: on a tree satisfying the invariants, inserting a key the
comparator orders neither before nor after some stored key leaves the
stored size, the whole skeleton (structure, keys, colors, stored sizes)
unchanged, and only replaces the value of the equivalent entries, keeping
their originally stored keys. -/
theorem claim_c4_update_value {K V : Type} [Inhabited K] [Inhabited V]
    {cmp : K → K → Bool} (hsto : IsSTO cmp) {t : LlrbNode K V}
    (hinv : Inv cmp t) (hexact : sizeFieldOkExact t = true) (k : K) (v : V)
    (heqv : ∃ e ∈ inorder t, cmp k e.1 = false ∧ cmp e.1 k = false) :
    size (insert cmp k v t) = size t ∧
      skeleton (insert cmp k v t) = skeleton t ∧
      inorder (insert cmp k v t) =
        (inorder t).map
          (fun a => if cmp k a.1 || cmp a.1 k then a else (a.1, v)) := by
  obtain ⟨hok, hbal, hsc, hred, hcnt, hasc⟩ := hinv
  have hlt : count t < sizeMod :=
    count_lt_of_inv_exact ⟨hok, hbal, hsc, hred, hcnt, hasc⟩ hexact
  have hnz := noZeroSize_of_sizeConsistent t hsc hlt
  have hskel := InnerInsert_eqv hsto k v t hnz hok hsc hasc heqv
  have hredins : (InnerInsert cmp k v t).red = false := by
    rw [red_eq_of_skeleton_eq hskel]
    exact hred
  have hins : insert cmp k v t = InnerInsert cmp k v t := by
    simp only [LlrbNode.insert, hredins, Bool.false_eq_true, if_false]
  rw [hins]
  refine ⟨size_eq_of_skeleton_eq hskel, hskel, ?_⟩
  rw [inorder_InnerInsert hsto k v t hnz hasc]
  exact linsert_eq_map_of_eqv hsto k v _ hasc heqv

/-- Witness for claim C4: inserting key 5 again with a new value into the
one-entry tree holding key 5. -/
theorem claim_c4_update_value_witness :
    IsSTO natLt ∧ Inv natLt (insertSeq natLt [(5, 1)]) ∧
      sizeFieldOkExact (insertSeq natLt [(5, 1)]) = true ∧
      (∃ e ∈ inorder (insertSeq natLt [(5, 1)]),
        natLt 5 e.1 = false ∧ natLt e.1 5 = false) ∧
      (size (insert natLt 5 2 (insertSeq natLt [(5, 1)])) =
          size (insertSeq natLt [(5, 1)]) ∧
        skeleton (insert natLt 5 2 (insertSeq natLt [(5, 1)])) =
          skeleton (insertSeq natLt [(5, 1)]) ∧
        inorder (insert natLt 5 2 (insertSeq natLt [(5, 1)])) =
          (inorder (insertSeq natLt [(5, 1)])).map
            (fun a => if natLt 5 a.1 || natLt a.1 5 then a else (a.1, 2))) :=
  ⟨natLt_sto,
    ⟨by decide, by decide, by decide, by decide, by decide, by decide⟩,
    by decide, by decide,
    claim_c4_update_value natLt_sto
      ⟨by decide, by decide, by decide, by decide, by decide, by decide⟩
      (by decide) 5 2 (by decide)⟩

/-- Claim C6 (amended): the fix-up is applied on the two return paths that
follow a recursive insert (key ordered before or after this node's key);
the equivalent-key path returns the value-updated clone with no fix-up; and
FixUp itself is exactly the size recomputation followed by the three
conditional transformations in the stated order. -/
theorem claim_c6_fixup_paths {K V : Type} [Inhabited K] [Inhabited V]
    (cmp : K → K → Bool) (k : K) (v : V) (e : K × V) (c : Color) (s : Nat)
    (l r : LlrbNode K V) (hs : s ≠ 0) :
    (cmp k e.1 = true →
        InnerInsert cmp k v (node e c s l r) =
          FixUp (node e c s (InnerInsert cmp k v l) r)) ∧
      (cmp k e.1 = false → cmp e.1 k = true →
        InnerInsert cmp k v (node e c s l r) =
          FixUp (node e c s l (InnerInsert cmp k v r))) ∧
      (cmp k e.1 = false → cmp e.1 k = false →
        InnerInsert cmp k v (node e c s l r) = node (e.1, v) c s l r) ∧
      (∀ u : LlrbNode K V,
        FixUp u = flipStep (rotateRightStep (rotateLeftStep (resize u)))) := by
  refine ⟨fun h1 => InnerInsert_node_lt v l r hs h1,
    fun h1 h2 => InnerInsert_node_gt v l r hs h1 h2,
    fun h1 h2 => InnerInsert_node_eqv v l r hs h1 h2,
    fun u => FixUp_eq_steps u⟩

/-- Witness for claim C6 (amended) at concrete values, exercising the
descending branch. -/
theorem claim_c6_fixup_paths_witness :
    (1 : Nat) ≠ 0 ∧ natLt 1 3 = true ∧
      InnerInsert natLt 1 5 (node ((3 : Nat), (0 : Nat)) Color.Black 1 nil nil) =
        FixUp (node ((3 : Nat), (0 : Nat)) Color.Black 1
          (InnerInsert natLt 1 5 nil) nil) :=
  ⟨by decide, by decide,
    (claim_c6_fixup_paths natLt 1 5 (3, 0) Color.Black 1 nil nil
      (by decide)).1 (by decide)⟩

/-- Counterexample to claim C6 as stated: on the equivalent-key path the
code applies no fix-up, so a variant that fixes up on every return path
(written from the claim) disagrees with InnerInsert on a tree whose right
child is red. -/
theorem claim_c6_fixup_paths_cex :
    innerInsertFixAll natLt 0 7
        (node ((0 : Nat), (0 : Nat)) Color.Black 2 nil
          (node (1, 1) Color.Red 1 nil nil)) ≠
      InnerInsert natLt 0 7
        (node ((0 : Nat), (0 : Nat)) Color.Black 2 nil
          (node (1, 1) Color.Red 1 nil nil)) := by
  decide

/-- Claim C9 (amended): inserting a key not equivalent to any stored key
into a tree satisfying the invariants yields a tree whose entries are
exactly the old entries plus the new pair, and whose stored root size is
the old stored size plus one reduced modulo 2 ^ 31 (the 31-bit size field
wraps when the new total reaches 2 ^ 31). -/
theorem claim_c9_fresh_key {K V : Type} [Inhabited K] [Inhabited V]
    {cmp : K → K → Bool} (hsto : IsSTO cmp) {t : LlrbNode K V}
    (hinv : Inv cmp t) (hexact : sizeFieldOkExact t = true) (k : K) (v : V)
    (hfresh : ∀ e ∈ inorder t, cmp k e.1 = true ∨ cmp e.1 k = true) :
    size (insert cmp k v t) = (size t + 1) % sizeMod ∧
      (inorder (insert cmp k v t)).Perm ((k, v) :: inorder t) := by
  obtain ⟨hok, hbal, hsc, hred, hcnt, hasc⟩ := hinv
  have hlt : count t < sizeMod :=
    count_lt_of_inv_exact ⟨hok, hbal, hsc, hred, hcnt, hasc⟩ hexact
  have hnz := noZeroSize_of_sizeConsistent t hsc hlt
  have hio := inorder_insert hsto k v t hnz hasc
  constructor
  · have hsc' := sizeConsistent_insert cmp k v t hsc
    rw [size_eq_count_mod hsc', count_eq_length_inorder, hio,
      length_linsert_fresh cmp k v _ hfresh, ← count_eq_length_inorder,
      size_eq_count_mod hsc, Nat.mod_eq_of_lt hlt]
  · rw [hio]
    exact perm_linsert_fresh cmp k v _ hfresh

/-- Witness for claim C9 (amended): inserting the fresh key 7 into the
one-entry tree holding key 5. -/
theorem claim_c9_fresh_key_witness :
    IsSTO natLt ∧ Inv natLt (insertSeq natLt [(5, 1)]) ∧
      sizeFieldOkExact (insertSeq natLt [(5, 1)]) = true ∧
      (∀ e ∈ inorder (insertSeq natLt [(5, 1)]),
        natLt 7 e.1 = true ∨ natLt e.1 7 = true) ∧
      (size (insert natLt 7 2 (insertSeq natLt [(5, 1)])) =
          (size (insertSeq natLt [(5, 1)]) + 1) % sizeMod ∧
        (inorder (insert natLt 7 2 (insertSeq natLt [(5, 1)]))).Perm
          ((7, 2) :: inorder (insertSeq natLt [(5, 1)]))) :=
  ⟨natLt_sto,
    ⟨by decide, by decide, by decide, by decide, by decide, by decide⟩,
    by decide, by decide,
    claim_c9_fresh_key natLt_sto
      ⟨by decide, by decide, by decide, by decide, by decide, by decide⟩
      (by decide) 7 2 (by decide)⟩

/-- Counterexample to claim C9 as stated: the tree holding the keys
0, ..., 2 ^ 31 - 2 satisfies all the invariants including the exact size
clause, the key 2 ^ 31 - 1 is fresh for it, yet the insert's stored root
size is 0, not the old size plus one, because the 31-bit field wraps. -/
theorem claim_c9_fresh_key_cex :
    IsSTO natLt ∧
      Inv natLt (insertSeq natLt (rangePairs (sizeMod - 1))) ∧
      sizeFieldOkExact (insertSeq natLt (rangePairs (sizeMod - 1))) = true ∧
      (∀ e ∈ inorder (insertSeq natLt (rangePairs (sizeMod - 1))),
        natLt (sizeMod - 1) e.1 = true ∨ natLt e.1 (sizeMod - 1) = true) ∧
      size (insert natLt (sizeMod - 1) 0
          (insertSeq natLt (rangePairs (sizeMod - 1)))) ≠
        size (insertSeq natLt (rangePairs (sizeMod - 1))) + 1 := by
  have hio := inorder_insertSeq_range (sizeMod - 1) (by omega)
  have hInv := Inv_insertSeq natLt_sto (K := Nat) (V := Nat)
    (rangePairs (sizeMod - 1))
  obtain ⟨hok, hbal, hsc, hred, hcnt, hasc⟩ := hInv
  have hcount : count (insertSeq natLt (rangePairs (sizeMod - 1))) =
      sizeMod - 1 := by
    rw [count_eq_length_inorder, hio]
    simp [rangePairs]
  have hlt : count (insertSeq natLt (rangePairs (sizeMod - 1))) < sizeMod := by
    rw [hcount, sizeMod_eq]
    omega
  have hnz := noZeroSize_of_sizeConsistent _ hsc hlt
  have hfresh : ∀ e ∈ inorder (insertSeq natLt (rangePairs (sizeMod - 1))),
      natLt (sizeMod - 1) e.1 = true ∨ natLt e.1 (sizeMod - 1) = true := by
    intro e he
    rw [hio] at he
    have := mem_rangePairs he
    right
    simp only [natLt, decide_eq_true_eq]
    omega
  refine ⟨natLt_sto, ⟨hok, hbal, hsc, hred, hcnt, hasc⟩,
    sizeFieldOkExact_of_sizeConsistent _ hsc hlt, hfresh, ?_⟩
  have hsz : size (insertSeq natLt (rangePairs (sizeMod - 1))) =
      sizeMod - 1 := by
    rw [size_eq_count_mod hsc, hcount, Nat.mod_eq_of_lt]
    rw [sizeMod_eq]
    omega
  have hsc' := sizeConsistent_insert natLt (sizeMod - 1) 0 _ hsc
  have hsz' : size (insert natLt (sizeMod - 1) 0
      (insertSeq natLt (rangePairs (sizeMod - 1)))) = 0 := by
    rw [size_eq_count_mod hsc', count_eq_length_inorder,
      inorder_insert natLt_sto (sizeMod - 1) 0 _ hnz hasc, hio,
      length_linsert_fresh natLt (sizeMod - 1) 0 _ ?hf]
    · have hlen : (rangePairs (sizeMod - 1)).length = sizeMod - 1 := by
        simp [rangePairs]
      rw [hlen]
      have : sizeMod - 1 + 1 = sizeMod := by
        rw [sizeMod_eq]
      rw [this, Nat.mod_self]
    case hf =>
      intro e he
      have := mem_rangePairs he
      right
      simp only [natLt, decide_eq_true_eq]
      omega
  rw [hsz, hsz']
  rw [sizeMod_eq]
  omega

/-- Claim C3: an insert call never writes to any cell that existed before
the call — every preexisting node keeps its entry, color, stored size and
children — and the old root still reads back as the identical tree, with
its original stored size and in-order entry sequence. -/
theorem claim_c3_persistence {K V : Type} [Inhabited K] [Inhabited V]
    (cmp : K → K → Bool) (k : K) (v : V) (fuel : Nat) (s : StoreH K V)
    (r1 : Nat) (hwf : ClosedH s) (hr1 : r1 < s.length) :
    s.length ≤ (insertH cmp k v fuel s r1).1.length ∧
      (∀ i, i < s.length →
        getCell (insertH cmp k v fuel s r1).1 i = getCell s i) ∧
      (∀ f b, b < s.length →
        readTreeH f (insertH cmp k v fuel s r1).1 b = readTreeH f s b) ∧
      sizeH (insertH cmp k v fuel s r1).1 r1 = sizeH s r1 ∧
      (∀ f, inorderH f (insertH cmp k v fuel s r1).1 r1 =
        inorderH f s r1) := by
  obtain ⟨hlen, hcells⟩ := frame_insertH cmp k v fuel s r1
  have hrt := readTreeH_congr hcells hwf
  refine ⟨hlen, hcells, fun f b hb => hrt f b hb, ?_, fun f => ?_⟩
  · rw [sizeH, sizeH, hcells r1 hr1]
  · rw [inorderH, inorderH, hrt f r1 hr1]

/-- Witness for claim C3: inserting into the store holding only the empty
sentinel. -/
theorem claim_c3_persistence_witness :
    ClosedH (store0 : StoreH Nat Nat) ∧
      0 < (store0 : StoreH Nat Nat).length ∧
      ((store0 : StoreH Nat Nat).length ≤
          (insertH natLt 5 7 4 (store0 : StoreH Nat Nat) 0).1.length ∧
        (∀ i, i < (store0 : StoreH Nat Nat).length →
          getCell (insertH natLt 5 7 4 (store0 : StoreH Nat Nat) 0).1 i =
            getCell (store0 : StoreH Nat Nat) i) ∧
        (∀ f b, b < (store0 : StoreH Nat Nat).length →
          readTreeH f (insertH natLt 5 7 4 (store0 : StoreH Nat Nat) 0).1 b =
            readTreeH f (store0 : StoreH Nat Nat) b) ∧
        sizeH (insertH natLt 5 7 4 (store0 : StoreH Nat Nat) 0).1 0 =
          sizeH (store0 : StoreH Nat Nat) 0 ∧
        (∀ f,
          inorderH f (insertH natLt 5 7 4 (store0 : StoreH Nat Nat) 0).1 0 =
            inorderH f (store0 : StoreH Nat Nat) 0)) :=
  ⟨by decide, by decide,
    claim_c3_persistence natLt 5 7 4 store0 0 (by decide) (by decide)⟩

/-- Claim C8: the empty sentinel is the canonical cell at address 0 of the
initial store: Black, stored size 0 (so empty() holds), with both child
addresses wired back to address 0, so left or right descent of any depth
stays at the same sentinel; the default-constructed node is that address,
and the value-level empty node shows the same observable behavior. -/
theorem claim_c8_empty_sentinel {K V : Type} [Inhabited K] [Inhabited V] :
    getCell (store0 : StoreH K V) 0 = emptyRepH ∧
      (emptyRepH : RepH K V).color = Color.Black ∧
      (emptyRepH : RepH K V).size = 0 ∧
      (emptyRepH : RepH K V).left = 0 ∧
      (emptyRepH : RepH K V).right = 0 ∧
      defaultAddr = 0 ∧
      sizeH (store0 : StoreH K V) 0 = 0 ∧
      redH (store0 : StoreH K V) 0 = false ∧
      (∀ n, leftDescH (store0 : StoreH K V) n 0 = 0) ∧
      color (nil : LlrbNode K V) = Color.Black ∧
      size (nil : LlrbNode K V) = 0 ∧
      empty (nil : LlrbNode K V) = true ∧
      left (nil : LlrbNode K V) = nil ∧
      right (nil : LlrbNode K V) = nil :=
  ⟨rfl, rfl, rfl, rfl, rfl, rfl, rfl, rfl, leftDescH_store0, rfl, rfl, rfl,
    rfl, rfl⟩

end FirestoreLlrb
